import Mathlib

/-! Verification development for the babelapi schema toolchain.

Part A embeds the validator/serializer runtime that the generated Python
code depends on.  The runtime modules (babel_validators.py and
babel_serializers.py) are not part of the sources here; only their test
suite (src/test/test_python_gen.py) and the generator that emits code
against them (src/babelapi/generator/target/python/python.babelg.py)
are.  The runtime is therefore modelled from the specification text
(sections 3, 4.2 and 4.3 of spec.md), with the tests as cross-checks.

Part B embeds the indentation-sensitive lexer
(src/babelapi/babel/lexer.py) directly from its source.  -/

set_option linter.unusedVariables false

namespace BabelSpec

/-- JSON values: the wire format of the serializer.  Numbers are modelled
as integers (the claims under study involve no floating point). -/
inductive Json where
| jstr (s : String)
| jint (n : Int)
| jbool (b : Bool)
| jnull
| jarr (xs : List Json)
| jobj (kvs : List (String × Json))

/-- Native values handled by the runtime.  A struct instance is its field
slots in declaration order, each present (some) or unset (none); a union
instance is its active tag plus a payload, where vnone stands for the
Python None payload carried by Symbol and Any variants and by nullable
variants decoded from null. -/
inductive Value where
| vstr (s : String)
| vint (n : Int)
| vbool (b : Bool)
| vnone
| vtimestamp (t : Nat)
| vlist (xs : List Value)
| vstruct (fvs : List (String × Option Value))
| vunion (tag : String) (payload : Value)

/-- Modelled from the spec: the single ValidationError taxonomy of section 7,
refined by the failure kinds named in section 4.2/4.3 (babel_validators.py
is not under src). -/
inductive VErr where
| wrongType
| tooShort
| tooLong
| outOfRange
| unknownVariant
| unknownField
| missingField
| badWireShape
| unsupported

mutual
/-- Modelled from the spec: the Validator variant type of section 3
(babel_validators.py is not under src).  Binary and Float are omitted:
no claim involves them and Float is floating point.  The Timestamp
format string is abstracted to its precision in ticks: a format that
renders whole units of prec ticks.  The String pattern constraint is
omitted (regex matching is external to every claim). -/
inductive Validator where
| stringV (minLength maxLength : Option Nat)
| intV (minValue maxValue : Int)
| boolV
| timestampV (prec : Nat)
| symbolV
| anyV
| nullableV (inner : Validator)
| listV (item : Validator) (minItems maxItems : Option Nat)
| structV (fields : Fields)
| unionV (variants : Fields) (catchAll : Option String)
/-- Modelled from the spec: an ordered field/variant list, FieldSpec of
section 3: name, validator and optional declared default (unions carry
none as default). -/
inductive Fields where
| nil
| cons (name : String) (v : Validator) (dflt : Option Value) (rest : Fields)
end

/-- Lookup of a field or variant validator by name. -/
def Fields.lookupF : Fields → String → Option Validator
| .nil, _ => none
| .cons name v _ rest, k => if k = name then some v else rest.lookupF k

/-- Names of a field list, in declaration order. -/
def Fields.names : Fields → List String
| .nil => []
| .cons name _ _ rest => name :: rest.names

/-- Does the validator classify as Symbol or Any (the bare-tag union
variants)? -/
def Validator.isSymbolOrAny : Validator → Bool
| .symbolV => true
| .anyV => true
| _ => false

/-- Is the validator a Nullable wrapper? -/
def Validator.isNullable : Validator → Bool
| .nullableV _ => true
| _ => false

/-- Is the value the distinguished absent value? -/
def Value.isVNone : Value → Bool
| .vnone => true
| _ => false

/-- Shared length/count bounds check used by String and List validation
(section 4.2). -/
def checkBounds (lo hi : Option Nat) (n : Nat) : Except VErr Unit :=
  if (match lo with | some l => decide (n < l) | none => false) then .error .tooShort
  else if (match hi with | some h => decide (h < n) | none => false) then .error .tooLong
  else .ok ()

mutual
/-- Modelled from the spec: validate of section 4.2, variant by variant
(babel_validators.py is not under src).  String returns the value
unchanged (unicode canonicalization is the identity here); IntegerOf
explicitly rejects booleans; Nullable accepts the absent value and
otherwise delegates; List checks count bounds and validates every item;
Struct and Union perform only a type-identity check, modelled as
agreement of the slot names / known tag. -/
def validate : Validator → Value → Except VErr Value
| .stringV lo hi, .vstr s => do
    let _ ← checkBounds lo hi s.length
    .ok (.vstr s)
| .intV _ _, .vbool _ => .error .wrongType
| .intV lo hi, .vint n =>
    if lo ≤ n ∧ n ≤ hi then .ok (.vint n) else .error .outOfRange
| .boolV, .vbool b => .ok (.vbool b)
| .timestampV _, .vtimestamp t => .ok (.vtimestamp t)
| .anyV, v => .ok v
| .nullableV _, .vnone => .ok .vnone
| .nullableV inner, v => validate inner v
| .listV item lo hi, .vlist xs => do
    let _ ← checkBounds lo hi xs.length
    let ys ← validateList item xs
    .ok (.vlist ys)
| .structV fields, .vstruct fvs =>
    if fvs.map Prod.fst = fields.names then .ok (.vstruct fvs)
    else .error .wrongType
| .unionV variants _, .vunion tag payload =>
    if (variants.lookupF tag).isSome then .ok (.vunion tag payload)
    else .error .wrongType
| _, _ => .error .wrongType
termination_by v x => (sizeOf v, 0)
decreasing_by all_goals (simp_wf; omega)
/-- Item-by-item validation of a list value; the first invalid item
aborts with its error (section 4.2). -/
def validateList : Validator → List Value → Except VErr (List Value)
| _, [] => .ok []
| item, x :: xs => do
    let y ← validate item x
    let ys ← validateList item xs
    .ok (y :: ys)
termination_by item xs => (sizeOf item, xs.length + 1)
decreasing_by all_goals (simp_wf; omega)
end

mutual
/-- Deep conformance of a native value to a validator: the validity
notion quantified over by the round-trip law (a value the runtime could
have produced and re-validates at every level).  Struct slots are
present with a conformant non-absent value, or absent with a Nullable
validator (an unset field encodes through its fallback, so only the
nullable fallback, which decodes back to unset, is round-trippable).
Symbol and Any carry no conformant standalone value: they only occur as
union variants, where the payload must be absent. -/
def conformant : Validator → Value → Bool
| .stringV lo hi, .vstr s => (checkBounds lo hi s.length).isOk
| .intV lo hi, .vint n => decide (lo ≤ n) && decide (n ≤ hi)
| .boolV, .vbool _ => true
| .timestampV _, .vtimestamp _ => true
| .nullableV _, .vnone => true
| .nullableV inner, v => conformant inner v
| .listV item lo hi, .vlist xs =>
    (checkBounds lo hi xs.length).isOk && conformantList item xs
| .structV fields, .vstruct fvs => conformantFields fields fvs
| .unionV variants _, .vunion tag payload => conformantUnion variants tag payload
| _, _ => false
termination_by v x => (sizeOf v, 0)
decreasing_by all_goals (simp_wf; omega)
/-- Every list element conforms to the item validator. -/
def conformantList : Validator → List Value → Bool
| _, [] => true
| item, x :: xs => conformant item x && conformantList item xs
termination_by item xs => (sizeOf item, xs.length + 1)
decreasing_by all_goals (simp_wf; omega)
/-- Struct slots, aligned with the field list in order. -/
def conformantFields : Fields → List (String × Option Value) → Bool
| .nil, [] => true
| .nil, _ :: _ => false
| .cons _ _ _ _, [] => false
| .cons name v _ rest, (n2, ov) :: fvs =>
    decide (n2 = name) &&
    (match ov with
     | some x => conformant v x && !x.isVNone
     | none => v.isNullable) &&
    conformantFields rest fvs
termination_by fs fvs => (sizeOf fs, 0)
decreasing_by all_goals (simp_wf; omega)
/-- Union-value conformance: the active tag is a known variant; Symbol
and Any variants carry the absent payload, any other variant carries a
payload conformant to its validator. -/
def conformantUnion : Fields → String → Value → Bool
| .nil, _, _ => false
| .cons name v _ rest, tag, payload =>
    if tag = name then
      (if v.isSymbolOrAny then payload.isVNone else conformant v payload)
    else conformantUnion rest tag payload
termination_by fs tag payload => (sizeOf fs, 0)
decreasing_by all_goals (simp_wf; omega)
end

/-- Are all entries of a string list pairwise distinct? -/
def distinctNames : List String → Bool
| [] => true
| x :: xs => !xs.contains x && distinctNames xs

mutual
/-- The validators for which the round-trip law is claimed: built from
String, Integer, Boolean, List, Struct and catch-all-free Union, plus
the Nullable wrapper; union variants may additionally be Symbol or Any
(the bare-tag forms).  Timestamp, Any and standalone Symbol are the
lossy/abstract primitives and are excluded.  Struct field names must be
distinct (the struct invariant of section 3). -/
def nonLossy : Validator → Bool
| .stringV _ _ => true
| .intV _ _ => true
| .boolV => true
| .symbolV => true
| .nullableV inner => nonLossy inner
| .listV item _ _ => nonLossy item
| .structV fields => distinctNames fields.names && nonLossyFields fields
| .unionV variants catchAll => catchAll.isNone && nonLossyFields variants
| _ => false
termination_by v => (sizeOf v, 0)
decreasing_by all_goals (simp_wf; omega)
/-- All field/variant validators are non-lossy. -/
def nonLossyFields : Fields → Bool
| .nil => true
| .cons _ v _ rest => nonLossy v && nonLossyFields rest
termination_by fs => (sizeOf fs, 0)
decreasing_by all_goals (simp_wf; omega)
end

/-- Decimal digits of a natural number, most significant first. -/
def natDigits (n : Nat) : List Nat :=
  if h : n < 10 then [n] else natDigits (n / 10) ++ [n % 10]
termination_by n
decreasing_by
  simp_wf
  exact Nat.div_lt_self (by omega) (by omega)

/-- Value of a digit list read most significant first. -/
def digitsVal (ds : List Nat) : Nat :=
  ds.foldl (fun a d => a * 10 + d) 0

/-- One decimal digit as a character. -/
def digitChar (d : Nat) : Char :=
  match d with
  | 0 => '0' | 1 => '1' | 2 => '2' | 3 => '3' | 4 => '4'
  | 5 => '5' | 6 => '6' | 7 => '7' | 8 => '8' | _ => '9'

/-- Numeric value of a decimal digit character; 10 marks a non-digit. -/
def charVal (c : Char) : Nat :=
  match c with
  | '0' => 0 | '1' => 1 | '2' => 2 | '3' => 3 | '4' => 4
  | '5' => 5 | '6' => 6 | '7' => 7 | '8' => 8 | '9' => 9
  | _ => 10

/-- Render a natural number in decimal. -/
def renderNat (n : Nat) : String :=
  String.mk ((natDigits n).map digitChar)

/-- Parse a nonempty all-digit string in decimal. -/
def parseNat (s : String) : Option Nat :=
  let cs := s.toList
  if cs.isEmpty then none
  else if cs.all (fun c => charVal c < 10) then some (digitsVal (cs.map charVal))
  else none

mutual
/-- Modelled from the spec: the encode direction of the Codec, section
4.3 (babel_serializers.py is not under src).  Primitives map to their
JSON primitive; a boolean reaching an integer validator encodes as the
number 0 or 1, never as a JSON boolean; Timestamp renders the instant
truncated to the format precision; Nullable maps the absent value to
null; List re-validates count and items and then encodes elementwise;
Struct emits one key per field, falling back for an unset slot to null
when nullable, else the declared default, else failing; Union emits the
bare tag for Symbol/Any variants and a single-key object otherwise.
Any and standalone Symbol have no modelled encoding (no claim reaches
them). -/
def encode : Validator → Value → Except VErr Json
| .stringV _ _, .vstr s => .ok (.jstr s)
| .intV _ _, .vint n => .ok (.jint n)
| .intV _ _, .vbool b => .ok (.jint (if b then 1 else 0))
| .boolV, .vbool b => .ok (.jbool b)
| .timestampV prec, .vtimestamp t => .ok (.jstr (renderNat (t / prec)))
| .nullableV _, .vnone => .ok .jnull
| .nullableV inner, v => encode inner v
| .listV item lo hi, .vlist xs => do
    let _ ← checkBounds lo hi xs.length
    let _ ← validateList item xs
    let js ← encodeList item xs
    .ok (.jarr js)
| .structV fields, .vstruct fvs => do
    let kvs ← encodeFields fields fvs
    .ok (.jobj kvs)
| .unionV variants _, .vunion tag payload => encodeUnion variants tag payload
| _, _ => .error .wrongType
termination_by v x => (sizeOf v, 0)
decreasing_by all_goals (simp_wf; omega)
/-- Elementwise encoding of list items. -/
def encodeList : Validator → List Value → Except VErr (List Json)
| _, [] => .ok []
| item, x :: xs => do
    let j ← encode item x
    let js ← encodeList item xs
    .ok (j :: js)
termination_by item xs => (sizeOf item, xs.length + 1)
decreasing_by all_goals (simp_wf; omega)
/-- Struct slots to JSON object entries, field by field in order, with
the unset-slot fallbacks of section 4.3. -/
def encodeFields : Fields → List (String × Option Value) → Except VErr (List (String × Json))
| .nil, [] => .ok []
| .nil, _ :: _ => .error .wrongType
| .cons _ _ _ _, [] => .error .missingField
| .cons name v dflt rest, (n2, ov) :: fvs =>
    if n2 = name then
      match ov with
      | some x => do
          let j ← encode v x
          let kvs ← encodeFields rest fvs
          .ok ((name, j) :: kvs)
      | none =>
          if v.isNullable then do
            let kvs ← encodeFields rest fvs
            .ok ((name, .jnull) :: kvs)
          else
            match dflt with
            | some d => do
                let j ← encode v d
                let kvs ← encodeFields rest fvs
                .ok ((name, j) :: kvs)
            | none => .error .missingField
    else .error .wrongType
termination_by fs fvs => (sizeOf fs, 0)
decreasing_by all_goals (simp_wf; omega)
/-- Union encoding by walking the variant list for the active tag. -/
def encodeUnion : Fields → String → Value → Except VErr Json
| .nil, _, _ => .error .unknownVariant
| .cons name v _ rest, tag, payload =>
    if tag = name then
      if v.isSymbolOrAny then .ok (.jstr tag)
      else do
        let j ← encode v payload
        .ok (.jobj [(tag, j)])
    else encodeUnion rest tag payload
termination_by fs tag payload => (sizeOf fs, 0)
decreasing_by all_goals (simp_wf; omega)
end

/-- Last JSON value bound to a key in an object, matching sequential
assignment where a later duplicate key overwrites an earlier one. -/
def lookupLast (kvs : List (String × Json)) (k : String) : Option Json :=
  match kvs with
  | [] => none
  | kv :: t =>
    match lookupLast t k with
    | some j => some j
    | none => if kv.1 = k then some kv.2 else none

/-- Is every key of the object a known field name? -/
def keysKnown (fields : Fields) (kvs : List (String × Json)) : Bool :=
  kvs.all (fun kv => (fields.lookupF kv.1).isSome)

mutual
/-- Modelled from the spec: the decode direction of the Codec, section
4.3 (babel_serializers.py is not under src).  Dispatch is symmetric to
encode; primitives re-check their constraints; a JSON boolean is never
accepted for an integer validator; Struct honours the strict flag for
unrecognized keys and fails on a missing required field; Union accepts
a known bare tag only for Symbol/Any variants regardless of strict, and
for a single-key object with an unknown key fails under strict, falls
back to the configured catch-all tag when not strict, and fails when no
catch-all is configured. -/
def decode (strict : Bool) : Validator → Json → Except VErr Value
| .stringV lo hi, .jstr s => do
    let _ ← checkBounds lo hi s.length
    .ok (.vstr s)
| .intV lo hi, .jint n =>
    if lo ≤ n ∧ n ≤ hi then .ok (.vint n) else .error .outOfRange
| .boolV, .jbool b => .ok (.vbool b)
| .timestampV prec, .jstr s =>
    match parseNat s with
    | some m => .ok (.vtimestamp (m * prec))
    | none => .error .badWireShape
| .nullableV _, .jnull => .ok .vnone
| .nullableV inner, j => decode strict inner j
| .listV item lo hi, .jarr js => do
    let _ ← checkBounds lo hi js.length
    let xs ← decodeList strict item js
    .ok (.vlist xs)
| .structV fields, .jobj kvs =>
    if strict && !keysKnown fields kvs then .error .unknownField
    else do
      let fvs ← decodeFields strict fields kvs
      .ok (.vstruct fvs)
| .unionV variants catchAll, .jstr s =>
    match variants.lookupF s with
    | some v => if v.isSymbolOrAny then .ok (.vunion s .vnone) else .error .badWireShape
    | none => .error .unknownVariant
| .unionV variants catchAll, .jobj kvs =>
    match kvs with
    | [(k, j)] => decodeUnion strict variants catchAll k j
    | _ => .error .badWireShape
| _, _ => .error .wrongType
termination_by v j => (sizeOf v, 0)
decreasing_by all_goals (simp_wf; omega)
/-- Elementwise decoding of array items. -/
def decodeList (strict : Bool) : Validator → List Json → Except VErr (List Value)
| _, [] => .ok []
| item, j :: js => do
    let x ← decode strict item j
    let xs ← decodeList strict item js
    .ok (x :: xs)
termination_by item js => (sizeOf item, js.length + 1)
decreasing_by all_goals (simp_wf; omega)
/-- Struct decoding: for each declared field, the last object entry
bearing its name is decoded and assigned (a nullable field assigned
null becomes unset), an unassigned field stays unset when nullable or
defaulted and is a fatal missing-field error otherwise. -/
def decodeFields (strict : Bool) : Fields → List (String × Json) → Except VErr (List (String × Option Value))
| .nil, _ => .ok []
| .cons name v dflt rest, kvs =>
    match lookupLast kvs name with
    | some j => do
        let x ← decode strict v j
        let tail ← decodeFields strict rest kvs
        .ok ((name, if x.isVNone then none else some x) :: tail)
    | none =>
        if v.isNullable || dflt.isSome then do
          let tail ← decodeFields strict rest kvs
          .ok ((name, none) :: tail)
        else .error .missingField
termination_by fs kvs => (sizeOf fs, 0)
decreasing_by all_goals (simp_wf; omega)
/-- Single-key union object decoding by walking the variant list. -/
def decodeUnion (strict : Bool) : Fields → Option String → String → Json → Except VErr Value
| .nil, catchAll, _, _ =>
    if strict then .error .unknownVariant
    else
      match catchAll with
      | some t => .ok (.vunion t .vnone)
      | none => .error .unknownVariant
| .cons name v _ rest, catchAll, k, j =>
    if k = name then do
      let x ← decode strict v j
      .ok (.vunion k x)
    else decodeUnion strict rest catchAll k j
termination_by fs ca k j => (sizeOf fs, 0)
decreasing_by all_goals (simp_wf; omega)
end

/-- Modelled from the spec: Nullable construction (babel_validators.py
is not under src).  The double-wrapping invariant of section 3 is
enforced at construction time, as the runtime asserts and
test_nullable_data_type exercises: a Nullable inner validator is
rejected, any other inner validator is accepted. -/
def mkNullable (inner : Validator) : Except String Validator :=
  if inner.isNullable then .error "stacking nullables is not supported by the JSON wire format"
  else .ok (.nullableV inner)

/-- Shallow embedding of the struct field property getter emitted by
PythonGenerator._generate_struct_class_properties (python.babelg.py
lines 369-403): the generated getter returns the stored value when the
presence flag is set; otherwise it returns None for a nullable field,
else the declared default when the field has one, else it raises
AttributeError.  The generation-time choice among the three fallback
bodies is driven by the nullable/has_default flags of the field. -/
def structGetter (nullable hasDefault : Bool) (dflt : Value) (present : Bool) (stored : Value) : Except String Value :=
  if present then .ok stored
  else if nullable then .ok .vnone
  else if hasDefault then .ok dflt
  else .error "missing required field"

/-- A generated union instance: the active tag and the Python value
stored into the tag slot (none models the Python None). -/
structure UnionInstance where
  utag : String
  payload : Option Value

/-- Shallow embedding of the union constructor emitted by
PythonGenerator._generate_union_class_init (python.babelg.py lines
550-570): assert the tag is in the tag map; for a Symbol or Any
variant assert the value is None; otherwise validate the value with
the tag validator (a Python None payload validates as the absent
value); then store the value and the tag.  The tag-map validators are
the spec-modelled runtime validators. -/
def unionInit (tagmap : Fields) (tag : String) (value : Option Value) : Except String UnionInstance :=
  match tagmap.lookupF tag with
  | none => .error "Invalid tag"
  | some v =>
    if v.isSymbolOrAny then
      match value with
      | none => .ok ⟨tag, none⟩
      | some _ => .error "Do not set a value for Symbol or Any variant"
    else
      match validate v (match value with | none => .vnone | some x => x) with
      | .ok _ => .ok ⟨tag, value⟩
      | .error _ => .error "value does not validate against the tag validator"

/-! Part B: the lexer of src/babelapi/babel/lexer.py, embedded over
lists of characters.  The ply scanning machinery is specialized to the
rule set of BabelLexer: the master regex tries the function rules in
definition order (BOOLEAN, NULL, ID, PATH, FLOAT, INTEGER, STRING,
comment, NEWLINE) and then the single-character literal rules; ignored
characters (space, tab) are skipped before matching; an unmatched
character is recorded as an error and skipped.  Python 2 byte-string
semantics are assumed for splitlines (boundaries LF, CR, CRLF) and for
lstrip (whitespace: space, tab, vertical tab, form feed — LF and CR
cannot occur inside a split line). -/

/-- Token kinds of BabelLexer (lexer.py lines 92-170).  LINE never
arises from any rule but is consulted by the end-of-input check in
token(), so it is kept in the type. -/
inductive TokType where
| ID | KEYWORD | PATH | PIPE | DOT
| DEDENT | INDENT | NEWLINE
| COMMA | EQ | LPAR | RPAR
| BOOLEAN | FLOAT | INTEGER | NULL | STRING
| ASTERIX | Q
| DEPRECATED | EXTENDS | ATTRS | INCLUDE | OF | PASS | ROUTE | STRUCT | UNION
| LINE
deriving DecidableEq

/-- Token payloads: matched text, a parsed boolean, a parsed integer,
or the BabelNull sentinel.  A FLOAT token keeps its matched text (the
claims involve no floating-point values). -/
inductive TokValue where
| chars (cs : List Char)
| boolv (b : Bool)
| intv (n : Nat)
| nullv
deriving DecidableEq

/-- A lexical token: kind, value, line number and input position. -/
structure Token where
  ttype : TokType
  value : TokValue
  lineno : Nat
  lexpos : Nat
deriving DecidableEq

/-- State of the underlying ply scanner plus the indent tracking and
error accumulation of BabelLexer. -/
structure Scan where
  data : List Char
  pos : Nat
  lineno : Nat
  curIndent : Nat
  errors : List (Char × Nat)

/-- Result of one pull on the scanner: a token, the multi-token result
of the newline rule, end of input, the fatal bad-indentation
exception, or exhausted fuel. -/
inductive POut where
| tok (t : Token)
| multi (first : Token) (rest : List Token)
| eof
| fatal
| spin

/-- Word constituents of the Python 2 regex classes \b and \w. -/
def isWordChar (c : Char) : Bool := c.isAlpha || c.isDigit || c == '_'

/-- Identifier tail characters of t_ID. -/
def isIdTail (c : Char) : Bool := isWordChar c || c == '-'

/-- Path constituents of t_PATH. -/
def isPathChar (c : Char) : Bool :=
  c == '/' || c.isAlpha || c.isDigit || c == '_' || c == '-'

/-- Line boundaries of Python 2 str.splitlines. -/
def isLineBoundary (c : Char) : Bool := c == '\n' || c == '\r'

/-- Leading whitespace stripped by Python 2 str.lstrip, restricted to
the characters that can occur inside a split line. -/
def pySpace (c : Char) : Bool :=
  c == ' ' || c == '\t' || c == '\x0b' || c == '\x0c'

/-- Boolean list comparison: does the second list start with the first? -/
def lstarts : List Char → List Char → Bool
| [], _ => true
| _ :: _, [] => false
| p :: ps, c :: cs => p == c && lstarts ps cs

/-- Word boundary between the previous character and a word character. -/
def boundaryOK (prev : Option Char) : Bool :=
  match prev with
  | none => true
  | some c => !isWordChar c

/-- Word boundary after a match: end of input or a non-word character. -/
def noWordAfter : List Char → Bool
| [] => true
| c :: _ => !isWordChar c

/-- Rule t_BOOLEAN: the anchored words true and false. -/
def matchBoolean (prev : Option Char) (rest : List Char) : Option (Nat × Bool) :=
  if boundaryOK prev && lstarts "true".toList rest && noWordAfter (rest.drop 4) then
    some (4, true)
  else if boundaryOK prev && lstarts "false".toList rest && noWordAfter (rest.drop 5) then
    some (5, false)
  else none

/-- Rule t_NULL: the anchored word null. -/
def matchNull (prev : Option Char) (rest : List Char) : Option Nat :=
  if boundaryOK prev && lstarts "null".toList rest && noWordAfter (rest.drop 4) then
    some 4
  else none

/-- Rule t_ID: a letter or underscore followed by word or dash
characters, matched greedily. -/
def matchId (rest : List Char) : Option (List Char) :=
  match rest with
  | c :: t => if c.isAlpha || c == '_' then some (c :: t.takeWhile isIdTail) else none
  | [] => none

/-- Rule t_PATH: a slash followed by path characters. -/
def matchPath : List Char → Option (List Char)
| '/' :: t => some ('/' :: t.takeWhile isPathChar)
| _ => none

/-- The optional exponent part of t_FLOAT: a capital E, an optional
sign, then one or more digits; returns the consumed length. -/
def matchExp (rest : List Char) : Option Nat :=
  match rest with
  | 'E' :: t =>
    let sgn : Nat := match t with | '+' :: _ => 1 | '-' :: _ => 1 | _ => 0
    let ds := (t.drop sgn).takeWhile Char.isDigit
    if ds.isEmpty then none else some (1 + sgn + ds.length)
  | _ => none

/-- Rule t_FLOAT: digits, a dot, digits, with an optional exponent; or
a nonzero-led integer with a mandatory exponent.  Returns the matched
text. -/
def matchFloat (rest : List Char) : Option (List Char) :=
  let ds1 := rest.takeWhile Char.isDigit
  let r1 := rest.drop ds1.length
  let alt1 : Option Nat :=
    match r1 with
    | '.' :: t =>
      let ds2 := t.takeWhile Char.isDigit
      if ds2.isEmpty then none
      else
        let base := ds1.length + 1 + ds2.length
        match matchExp (t.drop ds2.length) with
        | some e => some (base + e)
        | none => some base
    | _ => none
  match alt1 with
  | some len => some (rest.take len)
  | none =>
    match rest with
    | c :: _ =>
      if c.isDigit && c != '0' then
        match matchExp r1 with
        | some e => some (rest.take (ds1.length + e))
        | none => none
      else none
    | [] => none

/-- Rule t_INTEGER: one or more digits. -/
def matchInteger (rest : List Char) : Option (List Char) :=
  let ds := rest.takeWhile Char.isDigit
  if ds.isEmpty then none else some ds

/-- Body of the t_STRING regex after the opening quote: a sequence of
non-quote non-backslash characters or backslash escapes (the escaped
character may not be a newline), then the closing quote; returns the
consumed length including the closing quote. -/
def strBody : List Char → Option Nat
| [] => none
| '"' :: _ => some 1
| '\\' :: c :: t => if c == '\n' then none else (strBody t).map (fun n => n + 2)
| '\\' :: [] => none
| _ :: t => (strBody t).map (fun n => n + 1)

/-- Rule t_STRING: a double-quoted string literal; returns the full
matched length including both quotes. -/
def matchStringLit (rest : List Char) : Option Nat :=
  match rest with
  | '"' :: t => (strBody t).map (fun n => n + 1)
  | _ => none

/-- Rule t_comment: a hash, the remainder of the line, and one or more
trailing newlines; returns the matched length and the newline count. -/
def matchComment (rest : List Char) : Option (Nat × Nat) :=
  match rest with
  | '#' :: t =>
    let body := t.takeWhile (fun c => c != '\n')
    let nls := (t.drop body.length).takeWhile (fun c => c == '\n')
    if nls.isEmpty then none else some (1 + body.length + nls.length, nls.length)
  | _ => none

/-- Rule t_NEWLINE: a maximal run of newline characters. -/
def matchNewline (rest : List Char) : Option (List Char) :=
  let run := rest.takeWhile (fun c => c == '\n')
  if run.isEmpty then none else some run

/-- The single-character literal rules t_DOT, t_LPAR, t_RPAR, t_EQ,
t_COMMA, t_PIPE, t_ASTERIX, t_Q. -/
def matchLit (c : Char) : Option TokType :=
  match c with
  | '.' => some .DOT
  | '(' => some .LPAR
  | ')' => some .RPAR
  | '=' => some .EQ
  | ',' => some .COMMA
  | '|' => some .PIPE
  | '*' => some .ASTERIX
  | '?' => some .Q
  | _ => none

/-- The keyword list of BabelLexer (lexer.py lines 139-156). -/
def KEYWORDS : List String :=
  ["alias", "deprecated", "doc", "example", "error", "extends", "attrs",
   "include", "namespace", "of", "pass", "request", "response", "route",
   "struct", "union"]

/-- The RESERVED reclassification map (lexer.py lines 158-168). -/
def RESERVED (s : String) : Option TokType :=
  match s with
  | "deprecated" => some .DEPRECATED
  | "extends" => some .EXTENDS
  | "attrs" => some .ATTRS
  | "include" => some .INCLUDE
  | "of" => some .OF
  | "pass" => some .PASS
  | "route" => some .ROUTE
  | "struct" => some .STRUCT
  | "union" => some .UNION
  | _ => none

/-- First match of the master regex at the current position, in rule
order. -/
inductive RM where
| rbool (len : Nat) (b : Bool)
| rnull (len : Nat)
| rid (cs : List Char)
| rpath (cs : List Char)
| rfloat (cs : List Char)
| rint (cs : List Char)
| rstr (len : Nat)
| rcomment (len nl : Nat)
| rnewline (run : List Char)
| rlit (t : TokType) (c : Char)

/-- Try the rules of BabelLexer in their definition order and return
the first match. -/
def firstMatch (prev : Option Char) (rest : List Char) : Option RM :=
  match matchBoolean prev rest with
  | some (len, b) => some (.rbool len b)
  | none =>
  match matchNull prev rest with
  | some len => some (.rnull len)
  | none =>
  match matchId rest with
  | some cs => some (.rid cs)
  | none =>
  match matchPath rest with
  | some cs => some (.rpath cs)
  | none =>
  match matchFloat rest with
  | some cs => some (.rfloat cs)
  | none =>
  match matchInteger rest with
  | some cs => some (.rint cs)
  | none =>
  match matchStringLit rest with
  | some len => some (.rstr len)
  | none =>
  match matchComment rest with
  | some (len, nl) => some (.rcomment len nl)
  | none =>
  match matchNewline rest with
  | some run => some (.rnewline run)
  | none =>
  match rest with
  | c :: _ =>
    match matchLit c with
    | some tt => some (.rlit tt c)
    | none => none
  | [] => none

/-- The escape-processing loop of t_STRING (lexer.py lines 209-226):
backslash-n and backslash-t become newline and tab, any other escaped
character drops the backslash; a trailing lone backslash is dropped. -/
def unescape : List Char → List Char
| [] => []
| '\\' :: c :: t =>
    (if c == 'n' then '\n' else if c == 't' then '\t' else c) :: unescape t
| '\\' :: [] => []
| c :: t => c :: unescape t

/-- Python str.replace with an empty replacement: remove the leftmost
non-overlapping occurrences of the pattern, scanning left to right; an
empty pattern leaves the string unchanged.  This is the
line.replace(" " * cur_indent, "") of t_STRING (lexer.py line 228).
The skip counter consumes the tail of a just-matched occurrence one
character at a time, keeping the recursion structural. -/
def removeOccA (pat : List Char) : Nat → List Char → List Char
| 0, [] => []
| 0, c :: t =>
    if pat.isEmpty then c :: t
    else if lstarts pat (c :: t) then removeOccA pat (pat.length - 1) t
    else c :: removeOccA pat 0 t
| _ + 1, [] => []
| skip + 1, _ :: t => removeOccA pat skip t

/-- Remove every leftmost non-overlapping occurrence of the pattern. -/
def removeOcc (pat : List Char) (s : List Char) : List Char :=
  removeOccA pat 0 s

/-- Does the pattern occur anywhere in the string (the empty pattern
occurs everywhere)? -/
def hasOcc (pat : List Char) : List Char → Bool
| [] => pat.isEmpty
| c :: t => lstarts pat (c :: t) || hasOcc pat t

/-- Python 2 str.splitlines: split on LF, CR and CRLF, with no empty
final line after a terminal boundary. -/
def splitPyAux (cur : List Char) : List Char → List (List Char)
| [] => [cur.reverse]
| '\r' :: '\n' :: t =>
    cur.reverse :: (match t with | [] => [] | u => splitPyAux [] u)
| '\r' :: t =>
    cur.reverse :: (match t with | [] => [] | u => splitPyAux [] u)
| '\n' :: t =>
    cur.reverse :: (match t with | [] => [] | u => splitPyAux [] u)
| c :: t => splitPyAux (c :: cur) t

/-- Python 2 str.splitlines, top level: the empty string has no lines. -/
def splitPyLines (s : List Char) : List (List Char) :=
  match s with
  | [] => []
  | _ => splitPyAux [] s

/-- The value transformation of t_STRING (lexer.py lines 207-231):
strip the quotes, process escapes, then de-indent every line by
replacing each occurrence of the current-indent run of spaces with
nothing, and re-join with newlines. -/
def processString (curIndent : Nat) (raw : List Char) : List Char :=
  let content := (raw.drop 1).dropLast
  let un := unescape content
  List.intercalate ['\n']
    ((splitPyLines un).map (removeOcc (List.replicate curIndent ' ')))

/-- Backward scan of t_comment (lexer.py lines 244-256): from the
character before the hash toward the start of input; a newline or the
start of input classifies the comment as taking the full line
(discarded entirely), any non-space character classifies it as
trailing a statement on the same line. -/
def commentFullLine (data : List Char) : Nat → Bool
| 0 => true
| i + 1 =>
  let c := data.getD i ' '
  if c == '\n' then true
  else if c == ' ' then commentFullLine data i
  else false

/-- Payload characters of a token value. -/
def getChars : TokValue → List Char
| .chars cs => cs
| _ => []

/-- Rule t_NEWLINE (lexer.py lines 259-288): count the newlines, then
if input remains and the next line is nonempty compare its leading
whitespace against the tracked indent; a difference not divisible by 4
is fatal; otherwise emit the newline token followed by one INDENT or
DEDENT per 4-space step and update the tracked indent. -/
def tNEWLINE (sc : Scan) (tk : Token) : Scan × POut :=
  let cs := getChars tk.value
  let sc1 : Scan := { sc with lineno := sc.lineno + cs.count '\n' }
  let nlp := tk.lexpos + cs.length
  if nlp = sc1.data.length then (sc1, .tok tk)
  else
    let line := (sc1.data.drop nlp).takeWhile (fun c => !isLineBoundary c)
    if line.isEmpty then (sc1, .tok tk)
    else
      let indent := (line.takeWhile pySpace).length
      let ds : Int := (indent : Int) - (sc1.curIndent : Int)
      if ds % 4 ≠ 0 then (sc1, .fatal)
      else
        let delta := ds / 4
        let dentType := if 0 < delta then TokType.INDENT else TokType.DEDENT
        let dent : Token := ⟨dentType, .chars ['\t'], tk.lineno + 1, nlp⟩
        ({ sc1 with curIndent := indent }, .multi tk (List.replicate delta.natAbs dent))

/-- Result of the comment rule: either the comment took the whole line
and scanning just continues from the advanced state, or a NEWLINE was
synthesized and dispatched through the newline handler. -/
inductive COut where
| cont (sc : Scan)
| out (r : Scan × POut)

/-- The action of t_comment after its regex matched len characters
containing nl newlines (lexer.py lines 239-256): advance past the
match and count its lines; a full-line comment produces no token and
scanning continues; a trailing comment synthesizes a NEWLINE token
(positioned on the last consumed newline) and dispatches it through
the newline handler. -/
def tCommentStep (sc : Scan) (len nl : Nat) : COut :=
  let sc1 : Scan := { sc with pos := sc.pos + len, lineno := sc.lineno + nl }
  if commentFullLine sc.data sc.pos then .cont sc1
  else .out (tNEWLINE sc1 ⟨.NEWLINE, .chars ['\n'], sc.lineno, sc.pos + len - 1⟩)

/-- One pull on the underlying ply scanner: skip ignored characters,
record and skip illegal characters, drop full-line comments, and
otherwise act on the first rule match, mirroring lexer.py.  The fuel
bounds the skip loop; every iteration consumes at least one input
character. -/
def plyNext : Nat → Scan → Scan × POut
| 0, sc => (sc, .spin)
| fuel + 1, sc =>
  if sc.data.length ≤ sc.pos then (sc, .eof)
  else
    let c := sc.data.getD sc.pos ' '
    if c == ' ' || c == '\t' then plyNext fuel { sc with pos := sc.pos + 1 }
    else
      let rest := sc.data.drop sc.pos
      let prev := if sc.pos = 0 then none else some (sc.data.getD (sc.pos - 1) ' ')
      match firstMatch prev rest with
      | some (.rbool len b) =>
          ({ sc with pos := sc.pos + len }, .tok ⟨.BOOLEAN, .boolv b, sc.lineno, sc.pos⟩)
      | some (.rnull len) =>
          ({ sc with pos := sc.pos + len }, .tok ⟨.NULL, .nullv, sc.lineno, sc.pos⟩)
      | some (.rid cs) =>
          let s := String.mk cs
          let tt := if KEYWORDS.contains s then (RESERVED s).getD .KEYWORD else .ID
          ({ sc with pos := sc.pos + cs.length }, .tok ⟨tt, .chars cs, sc.lineno, sc.pos⟩)
      | some (.rpath cs) =>
          ({ sc with pos := sc.pos + cs.length }, .tok ⟨.PATH, .chars cs, sc.lineno, sc.pos⟩)
      | some (.rfloat cs) =>
          ({ sc with pos := sc.pos + cs.length }, .tok ⟨.FLOAT, .chars cs, sc.lineno, sc.pos⟩)
      | some (.rint cs) =>
          ({ sc with pos := sc.pos + cs.length },
           .tok ⟨.INTEGER, .intv (digitsVal (cs.map charVal)), sc.lineno, sc.pos⟩)
      | some (.rstr len) =>
          let raw := rest.take len
          ({ sc with pos := sc.pos + len, lineno := sc.lineno + raw.count '\n' },
           .tok ⟨.STRING, .chars (processString sc.curIndent raw), sc.lineno, sc.pos⟩)
      | some (.rcomment len nl) =>
          match tCommentStep sc len nl with
          | .cont sc1 => plyNext fuel sc1
          | .out r => r
      | some (.rnewline run) =>
          tNEWLINE { sc with pos := sc.pos + run.length }
            ⟨.NEWLINE, .chars run, sc.lineno, sc.pos⟩
      | some (.rlit tt ch) =>
          ({ sc with pos := sc.pos + 1 }, .tok ⟨tt, .chars [ch], sc.lineno, sc.pos⟩)
      | none =>
          plyNext fuel
            { sc with pos := sc.pos + 1, errors := sc.errors ++ [(c, sc.lineno)] }

/-- State of a BabelLexer object: the scanner, the pending-token queue
and the last emitted token. -/
structure LexB where
  sc : Scan
  queue : List Token
  lastTok : Option Token

/-- Result of BabelLexer.token(): the next token or end of stream
(which also covers the fatal indentation exception and exhausted
fuel). -/
inductive TOut where
| tok (t : Token)
| stop

/-- The NEWLINE token synthesized at end of input (lexer.py line 58). -/
def newlineEOF (sc : Scan) : Token := ⟨.NEWLINE, .chars ['\n'], sc.lineno, sc.pos⟩

/-- The DEDENT token synthesized at end of input (lexer.py line 61). -/
def dedentEOF (sc : Scan) : Token := ⟨.DEDENT, .chars ['\t'], sc.lineno, sc.pos⟩

/-- BabelLexer.token() (lexer.py lines 42-68): pop the pending queue if
nonempty; otherwise pull the scanner; a multi-token result queues its
tail; at end of input with a nonzero tracked indent, synthesize a
NEWLINE (unless the last token was already NEWLINE or LINE) followed
by one DEDENT per 4 spaces of indent, reset the indent, and start
emitting from that queue. -/
def tokenB (fuel : Nat) (st : LexB) : LexB × TOut :=
  match st.queue with
  | t :: rest => ({ st with queue := rest, lastTok := some t }, .tok t)
  | [] =>
    let pr := plyNext fuel st.sc
    match pr.2 with
    | .tok t => ({ st with sc := pr.1, lastTok := some t }, .tok t)
    | .multi t rest => (⟨pr.1, rest, some t⟩, .tok t)
    | .eof =>
      if pr.1.curIndent ≠ 0 then
        let q1 : List Token :=
          match st.lastTok with
          | some lt =>
            if lt.ttype ≠ .NEWLINE ∧ lt.ttype ≠ .LINE then [newlineEOF pr.1] else []
          | none => []
        let q := q1 ++ List.replicate (pr.1.curIndent / 4) (dedentEOF pr.1)
        match q with
        | t :: rest => (⟨{ pr.1 with curIndent := 0 }, rest, some t⟩, .tok t)
        | [] => (⟨{ pr.1 with curIndent := 0 }, [], st.lastTok⟩, .stop)
      else ({ st with sc := pr.1, lastTok := none }, .stop)
    | .fatal => ({ st with sc := pr.1 }, .stop)
    | .spin => ({ st with sc := pr.1 }, .stop)

/-- Pull tokens until end of stream (or the fuel bound), collecting
the emitted stream.  The inner fuel passed to each scanner pull always
suffices for its skip loop. -/
def tokenize : Nat → LexB → LexB × List Token
| 0, st => (st, [])
| fuel + 1, st =>
  let innerF := st.sc.data.length - st.sc.pos + 1
  match tokenB innerF st with
  | (st1, .tok t) =>
    let r := tokenize fuel st1
    (r.1, t :: r.2)
  | (st1, .stop) => (st1, [])

/-- A freshly constructed BabelLexer (lexer.py lines 20-27). -/
def initLexer : LexB :=
  ⟨⟨[], 0, 1, 0, []⟩, [], none⟩

/-- BabelLexer.input (lexer.py lines 29-40): build a fresh ply lexer
(position 0, line 1), reset the pending queue and the tracked indent,
and feed the file contents with a newline appended; the accumulated
error list and the last-token marker are left as they are. -/
def inputB (st : LexB) (fileData : List Char) : LexB :=
  ⟨⟨fileData ++ ['\n'], 0, 1, 0, st.sc.errors⟩, [], st.lastTok⟩

/-- Tokenize one input with a fresh lexer. -/
def tokenizeStr (fuel : Nat) (input : List Char) : List Token :=
  (tokenize fuel (inputB initLexer input)).2

/-- The trimmed view of a token used by concrete stream statements. -/
def tokKind (t : Token) : TokType := t.ttype

/-- Is the token an INDENT or DEDENT? -/
def isDent (t : Token) : Bool :=
  t.ttype == TokType.INDENT || t.ttype == TokType.DEDENT

/-- The line numbers of a token stream never decrease, starting from a
given floor. -/
def linesMono : Nat → List Token → Prop
| _, [] => True
| last, t :: ts => last ≤ t.lineno ∧ linesMono t.lineno ts

/-- Every INDENT/DEDENT in the stream directly follows a NEWLINE or
another INDENT/DEDENT (so dents form contiguous runs headed by a
NEWLINE); the flag records whether the previous token qualifies. -/
def dentsOK : Bool → List Token → Prop
| _, [] => True
| prevOK, t :: ts =>
  (isDent t = true → prevOK = true) ∧
  dentsOK (t.ttype == TokType.NEWLINE || isDent t) ts

/-- Line number of the last emitted token (0 before any emission). -/
def lastLine (st : LexB) : Nat :=
  match st.lastTok with
  | some t => t.lineno
  | none => 0

/-- Whether the last emitted token lets a dent follow it. -/
def prevFlag (st : LexB) : Bool :=
  match st.lastTok with
  | some t => t.ttype == TokType.NEWLINE || isDent t
  | none => false

/-- Invariant of the BabelLexer wrapper state between token() calls:
the pending queue holds only dents of one shared line number bounded
by the last emission and the scanner line, a nonempty queue follows a
NEWLINE or dent, the scanner line bounds the last emission, a nonzero
tracked indent implies something was emitted, and no LINE token ever
exists. -/
def StInv (st : LexB) : Prop :=
  (∀ t ∈ st.queue, isDent t = true) ∧
  (st.queue ≠ [] → prevFlag st = true) ∧
  (∀ t ∈ st.queue, lastLine st ≤ t.lineno ∧ t.lineno ≤ st.sc.lineno) ∧
  (∀ t ∈ st.queue, ∀ u ∈ st.queue, t.lineno = u.lineno) ∧
  lastLine st ≤ st.sc.lineno ∧
  (st.sc.curIndent ≠ 0 → st.lastTok ≠ none) ∧
  (∀ t, st.lastTok = some t → t.ttype ≠ TokType.LINE)

/-- Postcondition of one scanner pull, relative to the entry state:
the line number and error list only grow, the tracked indent changes
only through a multi-token (newline-rule) result, a single token is
never a dent (nor LINE) and sits between the entry and exit lines, and
a multi-token result is a NEWLINE followed by dents of the next line,
all below the exit line. -/
def SSpec (sc : Scan) (p : Scan × POut) : Prop :=
  sc.lineno ≤ p.1.lineno ∧
  (∃ es, p.1.errors = sc.errors ++ es) ∧
  ((∀ t rest, p.2 ≠ POut.multi t rest) → p.1.curIndent = sc.curIndent) ∧
  (∀ t, p.2 = POut.tok t → isDent t = false ∧ t.ttype ≠ TokType.LINE ∧
     sc.lineno ≤ t.lineno ∧ t.lineno ≤ p.1.lineno) ∧
  (∀ t rest, p.2 = POut.multi t rest → t.ttype = TokType.NEWLINE ∧
     sc.lineno ≤ t.lineno ∧ t.lineno + 1 ≤ p.1.lineno ∧
     ∀ d ∈ rest, isDent d = true ∧ d.lineno = t.lineno + 1)

/-! Theorems. -/

/-- C3: for every integer validator, encoding a boolean value where
that integer validator is expected produces the JSON number 0 or 1,
never the JSON boolean; encoding under a Boolean validator produces
the JSON boolean. -/
theorem C3_bool_under_int (lo hi : Int) (b : Bool) :
    encode (.intV lo hi) (.vbool b) = .ok (.jint (if b then 1 else 0)) ∧
    encode .boolV (.vbool b) = .ok (.jbool b) := by
  constructor
  · simp [encode]
  · simp [encode]

/-- C4: wrapping an already-Nullable validator fails at construction
for every inner validator, while Nullable over a non-Nullable inner
validator constructs successfully, its validate accepts the absent
value, and on any other value it delegates to the inner validator. -/
theorem C4_nullable_construction (V : Validator) :
    (mkNullable (.nullableV V)).isOk = false ∧
    (V.isNullable = false →
      mkNullable V = .ok (.nullableV V) ∧
      validate (.nullableV V) .vnone = .ok .vnone ∧
      ∀ x, x.isVNone = false → validate (.nullableV V) x = validate V x) := by
  refine ⟨by simp [mkNullable, Validator.isNullable, Except.isOk, Except.toBool],
          fun hV => ⟨?_, ?_, ?_⟩⟩
  · simp [mkNullable, hV]
  · simp [validate]
  · intro x hx
    cases x <;> simp_all [validate, Value.isVNone]

/-- C4 witness: concrete instance at the String validator. -/
theorem C4_nullable_construction_witness :
    (mkNullable (.nullableV (.stringV none none))).isOk = false ∧
    ((Validator.stringV none none).isNullable = false →
      mkNullable (.stringV none none) = .ok (.nullableV (.stringV none none)) ∧
      validate (.nullableV (.stringV none none)) .vnone = .ok .vnone ∧
      ∀ x, x.isVNone = false →
        validate (.nullableV (.stringV none none)) x = validate (.stringV none none) x) :=
  C4_nullable_construction (.stringV none none)

/-- C8: the generated struct field getter returns the stored value when
the field is set; when unset it returns None for a nullable field, else
the declared default when one exists, else it raises for the missing
required field. -/
theorem C8_struct_getter (nullable hasDefault present : Bool) (dflt stored : Value) :
    (present = true →
      structGetter nullable hasDefault dflt present stored = .ok stored) ∧
    (present = false → nullable = true →
      structGetter nullable hasDefault dflt present stored = .ok .vnone) ∧
    (present = false → nullable = false → hasDefault = true →
      structGetter nullable hasDefault dflt present stored = .ok dflt) ∧
    (present = false → nullable = false → hasDefault = false →
      ∃ e, structGetter nullable hasDefault dflt present stored = .error e) := by
  refine ⟨fun hp => ?_, fun hp hn => ?_, fun hp hn hd => ?_, fun hp hn hd => ?_⟩ <;>
    simp [structGetter, hp]
  · simp [hn]
  · simp [hn, hd]
  · simp [hn, hd]

/-- C8 witness: a present field returns its stored value; an unset
required field without default raises. -/
theorem C8_struct_getter_witness :
    structGetter false false (.vint 7) true (.vstr "x") = .ok (.vstr "x") ∧
    ∃ e, structGetter false false (.vint 7) false (.vstr "x") = .error e :=
  ⟨(C8_struct_getter false false true (.vint 7) (.vstr "x")).1 rfl,
   (C8_struct_getter false false false (.vint 7) (.vstr "x")).2.2.2 rfl rfl rfl⟩

/-- Induction on the field list alone (Fields is mutually inductive
with Validator, so the generated recursor carries both motives; the
validator components here are opaque). -/
theorem Fields.indP {motive : Fields → Prop} (h0 : motive .nil)
    (h1 : ∀ name v d rest, motive rest → motive (.cons name v d rest)) :
    ∀ fs, motive fs
| .nil => h0
| .cons n v d r => h1 n v d r (Fields.indP h0 h1 r)

/-- Walking the variant list for an unknown key reaches the end: fail
under strict, otherwise fall back to the catch-all tag when there is
one and fail when there is none. -/
theorem decodeUnion_unknown (strict : Bool) (variants : Fields) (ca : Option String)
    (tag : String) (j : Json) (h : variants.lookupF tag = none) :
    decodeUnion strict variants ca tag j =
      (if strict then .error .unknownVariant
       else
         match ca with
         | some t => .ok (.vunion t .vnone)
         | none => .error .unknownVariant) := by
  induction variants using Fields.indP with
  | h0 => rw [decodeUnion.eq_def]
  | h1 name v d rest ih =>
    simp only [Fields.lookupF] at h
    by_cases hk : tag = name
    · rw [if_pos hk] at h
      cases h
    · rw [if_neg hk] at h
      simp [decodeUnion, hk, ih h]

/-- C2: decoding a union against an unknown tag: a bare string fails
for every value of the strict flag; a single-key object with an
unknown key fails when strict, and when not strict yields the
catch-all-tagged instance if a catch-all is configured and fails
otherwise. -/
theorem C2_unknown_union_tag (variants : Fields) (ca : Option String)
    (tag : String) (j : Json) (h : variants.lookupF tag = none) :
    (∀ strict, decode strict (.unionV variants ca) (.jstr tag) = .error .unknownVariant) ∧
    (decode true (.unionV variants ca) (.jobj [(tag, j)]) = .error .unknownVariant) ∧
    (∀ t, ca = some t →
      decode false (.unionV variants ca) (.jobj [(tag, j)]) = .ok (.vunion t .vnone)) ∧
    (ca = none →
      decode false (.unionV variants ca) (.jobj [(tag, j)]) = .error .unknownVariant) := by
  refine ⟨fun strict => ?_, ?_, fun t hca => ?_, fun hca => ?_⟩
  · simp [decode, h]
  · simp [decode, decodeUnion_unknown true variants ca tag j h]
  · subst hca
    simp [decode, decodeUnion_unknown false variants (some t) tag j h]
  · subst hca
    simp [decode, decodeUnion_unknown false variants none tag j h]

/-- C2 witness: the union of the decoder test with catch-all tag b and
the unknown tag z, and the same union without a catch-all. -/
theorem C2_unknown_union_tag_witness :
    (∀ strict,
      decode strict (.unionV (Fields.cons "a" (.intV (-100) 100) none
        (Fields.cons "b" .symbolV none .nil)) (some "b")) (.jstr "z") =
        .error .unknownVariant) ∧
    (decode true (.unionV (Fields.cons "a" (.intV (-100) 100) none
        (Fields.cons "b" .symbolV none .nil)) (some "b"))
        (.jobj [("z", .jstr "test")]) = .error .unknownVariant) ∧
    (∀ t, (some "b" : Option String) = some t →
      decode false (.unionV (Fields.cons "a" (.intV (-100) 100) none
        (Fields.cons "b" .symbolV none .nil)) (some "b"))
        (.jobj [("z", .jstr "test")]) = .ok (.vunion t .vnone)) ∧
    ((some "b" : Option String) = none →
      decode false (.unionV (Fields.cons "a" (.intV (-100) 100) none
        (Fields.cons "b" .symbolV none .nil)) (some "b"))
        (.jobj [("z", .jstr "test")]) = .error .unknownVariant) :=
  C2_unknown_union_tag
    (Fields.cons "a" (.intV (-100) 100) none (Fields.cons "b" .symbolV none .nil))
    (some "b") "z" (.jstr "test") (by rfl)

/-- Appending a digit multiplies the accumulated value by ten. -/
theorem digitsVal_append (ds : List Nat) (d : Nat) :
    digitsVal (ds ++ [d]) = digitsVal ds * 10 + d := by
  simp [digitsVal, List.foldl_append]

/-- The decimal digits of a natural number evaluate back to it. -/
theorem digitsVal_natDigits (n : Nat) : digitsVal (natDigits n) = n := by
  induction n using Nat.strong_induction_on with
  | _ n ih =>
    rw [natDigits]
    split
    · simp [digitsVal]
    · rename_i h
      rw [digitsVal_append, ih (n / 10) (Nat.div_lt_self (by omega) (by omega))]
      omega

/-- All decimal digits are below ten. -/
theorem natDigits_lt (n : Nat) : ∀ d ∈ natDigits n, d < 10 := by
  induction n using Nat.strong_induction_on with
  | _ n ih =>
    rw [natDigits]
    split
    · rename_i h
      intro d hd
      simp only [List.mem_singleton] at hd
      omega
    · rename_i h
      intro d hd
      rw [List.mem_append] at hd
      rcases hd with hd | hd
      · exact ih (n / 10) (Nat.div_lt_self (by omega) (by omega)) d hd
      · simp only [List.mem_singleton] at hd
        omega

/-- The digit list is never empty. -/
theorem natDigits_ne_nil (n : Nat) : natDigits n ≠ [] := by
  rw [natDigits]
  split <;> simp

/-- Character round-trip of a single decimal digit. -/
theorem charVal_digitChar (d : Nat) (h : d < 10) : charVal (digitChar d) = d := by
  interval_cases d <;> rfl

/-- Parsing inverts rendering of a natural number. -/
theorem parseNat_renderNat (n : Nat) : parseNat (renderNat n) = some n := by
  have htl : (renderNat n).toList = (natDigits n).map digitChar := rfl
  have hne : ((natDigits n).map digitChar).isEmpty = false := by
    cases h : natDigits n with
    | nil => exact absurd h (natDigits_ne_nil n)
    | cons a l => simp [h]
  have hall : ((natDigits n).map digitChar).all (fun c => decide (charVal c < 10)) = true := by
    rw [List.all_eq_true]
    intro c hc
    rw [List.mem_map] at hc
    obtain ⟨d, hd, rfl⟩ := hc
    rw [charVal_digitChar d (natDigits_lt n d hd)]
    simpa using natDigits_lt n d hd
  have hmap : ((natDigits n).map digitChar).map charVal = natDigits n := by
    rw [List.map_map]
    have : (natDigits n).map (charVal ∘ digitChar) = (natDigits n).map id := by
      apply List.map_congr_left
      intro d hd
      exact charVal_digitChar d (natDigits_lt n d hd)
    rw [this, List.map_id]
  simp only [parseNat, htl, hne, hall, Bool.false_eq_true, if_false, if_true, hmap,
             digitsVal_natDigits]

/-- A succeeding bounds check is the trivial success. -/
theorem checkBounds_eq_ok (lo hi : Option Nat) (n : Nat)
    (h : (checkBounds lo hi n).isOk = true) : checkBounds lo hi n = .ok () := by
  cases hc : checkBounds lo hi n with
  | ok u => cases u; rfl
  | error e =>
    rw [hc] at h
    simp [Except.isOk, Except.toBool] at h

/-- The only value with the absent marker is vnone. -/
theorem eq_vnone_of_isVNone (x : Value) (h : x.isVNone = true) : x = .vnone := by
  cases x <;> simp_all [Value.isVNone]

/-- Conformant struct slots carry exactly the declared field names. -/
theorem conformantFields_names (fields : Fields) :
    ∀ fvs, conformantFields fields fvs = true → fvs.map Prod.fst = fields.names := by
  induction fields using Fields.indP with
  | h0 =>
    intro fvs h
    cases fvs with
    | nil => rfl
    | cons p l => simp [conformantFields] at h
  | h1 name v d rest ih =>
    intro fvs h
    cases fvs with
    | nil => simp [conformantFields] at h
    | cons p l =>
      cases p with
      | mk n2 ov =>
        rw [conformantFields.eq_def] at h
        dsimp only at h
        simp only [Bool.and_eq_true, decide_eq_true_eq] at h
        simp [Fields.names, h.1.1, ih l h.2]

/-- A conformant union value has a known tag. -/
theorem conformantUnion_lookup (variants : Fields) :
    ∀ tag payload, conformantUnion variants tag payload = true →
      (variants.lookupF tag).isSome = true := by
  induction variants using Fields.indP with
  | h0 =>
    intro tag payload h
    simp [conformantUnion] at h
  | h1 name v d rest ih =>
    intro tag payload h
    rw [conformantUnion] at h
    rw [Fields.lookupF]
    by_cases hk : tag = name
    · simp [hk]
    · rw [if_neg hk] at h
      simp [hk, ih tag payload h]

/-- The conformance of a non-absent value under Nullable is its
conformance under the inner validator. -/
theorem conformant_nullableV (inner : Validator) (x : Value) (hx : x.isVNone = false) :
    conformant (.nullableV inner) x = conformant inner x := by
  cases x <;> simp_all [Value.isVNone, conformant]

/-- Validation of a non-absent value under Nullable delegates to the
inner validator. -/
theorem validate_nullableV (inner : Validator) (x : Value) (hx : x.isVNone = false) :
    validate (.nullableV inner) x = validate inner x := by
  cases x <;> simp_all [Value.isVNone, validate]

mutual
/-- A deeply conformant value passes the runtime validate of section
4.2 unchanged. -/
theorem validate_conformant :
    ∀ (V : Validator) (x : Value), conformant V x = true → validate V x = .ok x
| .stringV lo hi, x, h => by
    cases x
    case vstr s =>
      rw [conformant] at h
      rw [validate, checkBounds_eq_ok lo hi s.length h]
      rfl
    all_goals (rw [conformant.eq_def] at h; simp at h)
| .intV lo hi, x, h => by
    cases x
    case vint n =>
      rw [conformant] at h
      simp only [Bool.and_eq_true, decide_eq_true_eq] at h
      rw [validate, if_pos h]
    all_goals (rw [conformant.eq_def] at h; simp at h)
| .boolV, x, h => by
    cases x
    case vbool b => rw [validate]
    all_goals (rw [conformant.eq_def] at h; simp at h)
| .timestampV prec, x, h => by
    cases x
    case vtimestamp t => rw [validate]
    all_goals (rw [conformant.eq_def] at h; simp at h)
| .symbolV, x, h => by
    rw [conformant.eq_def] at h
    simp at h
| .anyV, x, h => by
    rw [conformant.eq_def] at h
    simp at h
| .nullableV inner, x, h => by
    cases hx : x.isVNone with
    | true =>
      rw [eq_vnone_of_isVNone x hx]
      rw [validate]
    | false =>
      rw [conformant_nullableV inner x hx] at h
      rw [validate_nullableV inner x hx]
      exact validate_conformant inner x h
| .listV item lo hi, x, h => by
    cases x
    case vlist xs =>
      rw [conformant] at h
      simp only [Bool.and_eq_true] at h
      rw [validate, checkBounds_eq_ok lo hi xs.length h.1,
          validateList_conformant item xs h.2]
      rfl
    all_goals (rw [conformant.eq_def] at h; simp at h)
| .structV fields, x, h => by
    cases x
    case vstruct fvs =>
      rw [conformant] at h
      rw [validate, if_pos (conformantFields_names fields fvs h)]
    all_goals (rw [conformant.eq_def] at h; simp at h)
| .unionV variants ca, x, h => by
    cases x
    case vunion tag payload =>
      rw [conformant] at h
      rw [validate, if_pos (conformantUnion_lookup variants tag payload h)]
    all_goals (rw [conformant.eq_def] at h; simp at h)
termination_by V x h => (sizeOf V, 0)
decreasing_by all_goals (simp_wf; omega)
/-- Elementwise validation succeeds on a conformant list. -/
theorem validateList_conformant :
    ∀ (item : Validator) (xs : List Value), conformantList item xs = true →
      validateList item xs = .ok xs
| item, [], h => by rw [validateList]
| item, x :: t, h => by
    rw [conformantList] at h
    simp only [Bool.and_eq_true] at h
    rw [validateList, validate_conformant item x h.1, validateList_conformant item t h.2]
    rfl
termination_by item xs h => (sizeOf item, xs.length + 1)
decreasing_by all_goals (simp_wf; omega)
end

/-- Bind of a success in the Except monad. -/
theorem ebind_ok {ε α β : Type} (a : α) (f : α → Except ε β) :
    (Except.ok a >>= f) = f a := rfl

/-- Encoding a non-absent value under Nullable delegates inward. -/
theorem encode_nullableV (inner : Validator) (x : Value) (hx : x.isVNone = false) :
    encode (.nullableV inner) x = encode inner x := by
  cases x <;> simp_all [Value.isVNone, encode]

/-- Decoding a non-null JSON value under Nullable delegates inward. -/
theorem decode_nullableV (strict : Bool) (inner : Validator) (j : Json)
    (hj : j ≠ .jnull) : decode strict (.nullableV inner) j = decode strict inner j := by
  cases j <;> simp_all [decode]

/-- A Nullable validator is a wrapper around some inner validator. -/
theorem isNullable_elim (v : Validator) (h : v.isNullable = true) :
    ∃ inner, v = .nullableV inner := by
  cases v <;> simp_all [Validator.isNullable]

/-- A name in the field list resolves to a validator. -/
theorem lookupF_isSome_of_mem (fields : Fields) :
    ∀ k, k ∈ fields.names → (fields.lookupF k).isSome = true := by
  induction fields using Fields.indP with
  | h0 =>
    intro k hk
    simp [Fields.names] at hk
  | h1 name v d rest ih =>
    intro k hk
    rw [Fields.names] at hk
    rw [Fields.lookupF]
    by_cases hkn : k = name
    · simp [hkn]
    · rw [List.mem_cons] at hk
      rcases hk with hk | hk
      · exact absurd hk hkn
      · simp [hkn, ih k hk]

/-- An object whose keys are exactly the field names passes the
unknown-key scan. -/
theorem keysKnown_of_names (fields : Fields) (kvs : List (String × Json))
    (h : kvs.map Prod.fst = fields.names) : keysKnown fields kvs = true := by
  rw [keysKnown, List.all_eq_true]
  intro kv hkv
  apply lookupF_isSome_of_mem
  rw [← h]
  exact List.mem_map_of_mem Prod.fst hkv

/-- A key absent from every entry is not found. -/
theorem lookupLast_none (kvs : List (String × Json)) (k : String)
    (h : ∀ p ∈ kvs, p.1 ≠ k) : lookupLast kvs k = none := by
  induction kvs with
  | nil => rw [lookupLast]
  | cons kv t ih =>
    rw [lookupLast, ih (fun p hp => h p (List.mem_cons_of_mem kv hp)),
        if_neg (h kv (List.mem_cons_self kv t))]

/-- The last binding of a key wins: with no later occurrence of the
key, the marked entry is found regardless of what precedes it. -/
theorem lookupLast_last (pre tail : List (String × Json)) (k : String) (j : Json)
    (h : ∀ p ∈ tail, p.1 ≠ k) :
    lookupLast (pre ++ (k, j) :: tail) k = some j := by
  induction pre with
  | nil =>
    rw [List.nil_append, lookupLast, lookupLast_none tail k h]
    simp
  | cons q pre ih =>
    rw [List.cons_append, lookupLast, ih]

mutual
/-- The round-trip core: a deeply conformant value under a non-lossy
validator encodes successfully, to null only if it is the absent
value, and decodes back to itself under either strict mode. -/
theorem encdecRT :
    ∀ (strict : Bool) (V : Validator) (x : Value),
      nonLossy V = true → conformant V x = true →
      ∃ j, encode V x = .ok j ∧ (x.isVNone = false → j ≠ .jnull) ∧
        decode strict V j = .ok x
| strict, .stringV lo hi, x, hNL, hC => by
    cases x
    case vstr s =>
      rw [conformant] at hC
      refine ⟨.jstr s, by rw [encode], fun _ => by simp, ?_⟩
      rw [decode, checkBounds_eq_ok lo hi s.length hC]
      rfl
    all_goals (rw [conformant.eq_def] at hC; simp at hC)
| strict, .intV lo hi, x, hNL, hC => by
    cases x
    case vint n =>
      rw [conformant] at hC
      simp only [Bool.and_eq_true, decide_eq_true_eq] at hC
      exact ⟨.jint n, by rw [encode], fun _ => by simp, by rw [decode, if_pos hC]⟩
    all_goals (rw [conformant.eq_def] at hC; simp at hC)
| strict, .boolV, x, hNL, hC => by
    cases x
    case vbool b =>
      exact ⟨.jbool b, by rw [encode], fun _ => by simp, by rw [decode]⟩
    all_goals (rw [conformant.eq_def] at hC; simp at hC)
| strict, .timestampV prec, x, hNL, hC => by
    rw [nonLossy.eq_def] at hNL
    simp at hNL
| strict, .symbolV, x, hNL, hC => by
    rw [conformant.eq_def] at hC
    simp at hC
| strict, .anyV, x, hNL, hC => by
    rw [nonLossy.eq_def] at hNL
    simp at hNL
| strict, .nullableV inner, x, hNL, hC => by
    rw [nonLossy] at hNL
    cases hx : x.isVNone with
    | true =>
      rw [eq_vnone_of_isVNone x hx]
      refine ⟨.jnull, by rw [encode], fun hf => by simp [Value.isVNone] at hf, ?_⟩
      rw [decode]
    | false =>
      rw [conformant_nullableV inner x hx] at hC
      obtain ⟨j, he, hnn, hd⟩ := encdecRT strict inner x hNL hC
      refine ⟨j, ?_, fun _ => hnn hx, ?_⟩
      · rw [encode_nullableV inner x hx, he]
      · rw [decode_nullableV strict inner j (hnn hx), hd]
| strict, .listV item lo hi, x, hNL, hC => by
    rw [nonLossy] at hNL
    cases x
    case vlist xs =>
      rw [conformant] at hC
      simp only [Bool.and_eq_true] at hC
      obtain ⟨js, heL, hlen, hdL⟩ := encdecListRT strict item xs hNL hC.2
      refine ⟨.jarr js, ?_, fun _ => by simp, ?_⟩
      · rw [encode, checkBounds_eq_ok lo hi xs.length hC.1,
            validateList_conformant item xs hC.2, heL]
        rfl
      · rw [decode, hlen, checkBounds_eq_ok lo hi xs.length hC.1, hdL]
        rfl
    all_goals (rw [conformant.eq_def] at hC; simp at hC)
| strict, .structV fields, x, hNL, hC => by
    rw [nonLossy] at hNL
    simp only [Bool.and_eq_true] at hNL
    cases x
    case vstruct fvs =>
      rw [conformant] at hC
      obtain ⟨kvs, he, hnames, hdec⟩ := encdecFieldsRT strict fields fvs hNL.2 hNL.1 hC
      refine ⟨.jobj kvs, ?_, fun _ => by simp, ?_⟩
      · rw [encode, he]
        rfl
      · rw [decode, keysKnown_of_names fields kvs hnames]
        have hdnil := hdec [] (by simp)
        rw [List.nil_append] at hdnil
        simp only [Bool.not_true, Bool.and_false, Bool.false_eq_true, if_false]
        rw [hdnil]
        rfl
    all_goals (rw [conformant.eq_def] at hC; simp at hC)
| strict, .unionV variants ca, x, hNL, hC => by
    rw [nonLossy] at hNL
    simp only [Bool.and_eq_true] at hNL
    cases x
    case vunion tag payload =>
      rw [conformant] at hC
      obtain ⟨j, he, hshape⟩ := encdecUnionRT strict variants tag payload hNL.2 hC
      refine ⟨j, by rw [encode]; exact he, ?_, ?_⟩
      · rcases hshape with ⟨hjs, _, _⟩ | ⟨j0, hjo, _⟩
        · intro _; rw [hjs]; simp
        · intro _; rw [hjo]; simp
      · rcases hshape with ⟨hjs, ⟨v, hlk, hsa⟩, hpl⟩ | ⟨j0, hjo, hdu⟩
        · subst hjs
          subst hpl
          rw [decode, hlk]
          dsimp only
          rw [hsa]
          rfl
        · subst hjo
          rw [decode]
          exact hdu ca
    all_goals (rw [conformant.eq_def] at hC; simp at hC)
termination_by strict V x hNL hC => (sizeOf V, 0)
decreasing_by all_goals (simp_wf; omega)
/-- Elementwise round-trip for list items. -/
theorem encdecListRT :
    ∀ (strict : Bool) (item : Validator) (xs : List Value),
      nonLossy item = true → conformantList item xs = true →
      ∃ js, encodeList item xs = .ok js ∧ js.length = xs.length ∧
        decodeList strict item js = .ok xs
| strict, item, [], _, _ =>
    ⟨[], by rw [encodeList], rfl, by rw [decodeList]⟩
| strict, item, x :: t, hNL, hC => by
    rw [conformantList] at hC
    simp only [Bool.and_eq_true] at hC
    obtain ⟨j, he, hnn, hd⟩ := encdecRT strict item x hNL hC.1
    obtain ⟨js, heL, hlen, hdL⟩ := encdecListRT strict item t hNL hC.2
    refine ⟨j :: js, ?_, by simp [hlen], ?_⟩
    · rw [encodeList, he, heL]
      rfl
    · rw [decodeList, hd, hdL]
      rfl
termination_by strict item xs hNL hC => (sizeOf item, xs.length + 1)
decreasing_by all_goals (simp_wf; omega)
/-- Struct-slot round-trip: conformant slots encode to an object whose
keys are exactly the field names, and the decode pass rebuilds the
slots from it, insensitive to preceding entries with unknown keys. -/
theorem encdecFieldsRT :
    ∀ (strict : Bool) (fields : Fields) (fvs : List (String × Option Value)),
      nonLossyFields fields = true → distinctNames fields.names = true →
      conformantFields fields fvs = true →
      ∃ kvs, encodeFields fields fvs = .ok kvs ∧ kvs.map Prod.fst = fields.names ∧
        ∀ pre : List (String × Json), (∀ p ∈ pre, ¬ p.1 ∈ fields.names) →
          decodeFields strict fields (pre ++ kvs) = .ok fvs
| strict, .nil, fvs, _, _, hC => by
    cases fvs with
    | nil =>
      exact ⟨[], by rw [encodeFields], rfl, fun pre hp => by rw [decodeFields]⟩
    | cons p l =>
      rw [conformantFields.eq_def] at hC
      simp at hC
| strict, .cons name v dflt rest, fvs, hNL, hD, hC => by
    cases fvs with
    | nil =>
      rw [conformantFields.eq_def] at hC
      simp at hC
    | cons p l =>
      obtain ⟨n2, ov⟩ := p
      rw [conformantFields.eq_def] at hC
      dsimp only at hC
      simp only [Bool.and_eq_true, decide_eq_true_eq] at hC
      obtain ⟨⟨hn2, hov⟩, hrest⟩ := hC
      subst hn2
      rw [nonLossyFields] at hNL
      simp only [Bool.and_eq_true] at hNL
      rw [Fields.names, distinctNames] at hD
      simp only [Bool.and_eq_true, Bool.not_eq_true'] at hD
      have hnotin : ¬ n2 ∈ rest.names := by simpa using hD.1
      obtain ⟨kvsR, heR, hnamesR, hdecR⟩ := encdecFieldsRT strict rest l hNL.2 hD.2 hrest
      have htail : ∀ p ∈ kvsR, p.1 ≠ n2 := by
        intro p hp hcontra
        apply hnotin
        rw [← hnamesR, ← hcontra]
        exact List.mem_map_of_mem Prod.fst hp
      cases ov with
      | some x =>
        simp only [Bool.and_eq_true, Bool.not_eq_true'] at hov
        obtain ⟨j, he, hnn, hd⟩ := encdecRT strict v x hNL.1 hov.1
        refine ⟨(n2, j) :: kvsR, ?_, by simp [Fields.names, hnamesR], fun pre hp => ?_⟩
        · rw [encodeFields.eq_def]
          dsimp only
          rw [if_pos rfl]
          simp only [he, heR, ebind_ok]
        · have hp2 : ∀ p ∈ pre ++ [(n2, j)], ¬ p.1 ∈ rest.names := by
            intro p hpp
            rw [List.mem_append] at hpp
            rcases hpp with hpp | hpp
            · have := hp p hpp
              rw [Fields.names] at this
              simp only [List.mem_cons, not_or] at this
              exact this.2
            · simp only [List.mem_singleton] at hpp
              subst hpp
              exact hnotin
          have hrw := hdecR (pre ++ [(n2, j)]) hp2
          rw [List.append_assoc, List.singleton_append] at hrw
          rw [decodeFields, lookupLast_last pre kvsR n2 j htail]
          simp only [hd, hrw, ebind_ok, hov.2]
          rfl
      | none =>
        have hovn : v.isNullable = true := hov
        obtain ⟨inner, hvi⟩ := isNullable_elim v hovn
        refine ⟨(n2, .jnull) :: kvsR, ?_, by simp [Fields.names, hnamesR], fun pre hp => ?_⟩
        · rw [encodeFields.eq_def]
          dsimp only
          rw [if_pos rfl]
          simp [hovn, heR, ebind_ok]
        · have hp2 : ∀ p ∈ pre ++ [(n2, Json.jnull)], ¬ p.1 ∈ rest.names := by
            intro p hpp
            rw [List.mem_append] at hpp
            rcases hpp with hpp | hpp
            · have := hp p hpp
              rw [Fields.names] at this
              simp only [List.mem_cons, not_or] at this
              exact this.2
            · simp only [List.mem_singleton] at hpp
              subst hpp
              exact hnotin
          have hrw := hdecR (pre ++ [(n2, Json.jnull)]) hp2
          rw [List.append_assoc, List.singleton_append] at hrw
          rw [decodeFields, lookupLast_last pre kvsR n2 .jnull htail]
          subst hvi
          have hdn : decode strict (.nullableV inner) Json.jnull = .ok Value.vnone := by
            rw [decode]
          simp only [hdn, hrw, ebind_ok]
          rfl
termination_by strict fields fvs h1 h2 h3 => (sizeOf fields, 0)
decreasing_by all_goals (simp_wf; omega)
/-- Union round-trip: a conformant union value encodes as the bare tag
of a Symbol or Any variant with absent payload, or as a single-key
object on which the variant walk rebuilds the value. -/
theorem encdecUnionRT :
    ∀ (strict : Bool) (variants : Fields) (tag : String) (payload : Value),
      nonLossyFields variants = true → conformantUnion variants tag payload = true →
      ∃ j, encodeUnion variants tag payload = .ok j ∧
        ((j = .jstr tag ∧
          (∃ v, variants.lookupF tag = some v ∧ v.isSymbolOrAny = true) ∧
          payload = .vnone) ∨
         (∃ j0, j = .jobj [(tag, j0)] ∧
            ∀ ca, decodeUnion strict variants ca tag j0 = .ok (.vunion tag payload)))
| strict, .nil, tag, payload, _, hC => by
    rw [conformantUnion] at hC
    cases hC
| strict, .cons name v d rest, tag, payload, hNL, hC => by
    rw [conformantUnion] at hC
    rw [nonLossyFields] at hNL
    simp only [Bool.and_eq_true] at hNL
    by_cases hk : tag = name
    · rw [if_pos hk] at hC
      cases hsa : v.isSymbolOrAny with
      | true =>
        rw [hsa, if_pos rfl] at hC
        refine ⟨.jstr tag, ?_,
          .inl ⟨rfl, ⟨v, ?_, hsa⟩, eq_vnone_of_isVNone payload hC⟩⟩
        · rw [encodeUnion, if_pos hk, hsa, if_pos rfl]
        · rw [Fields.lookupF, if_pos hk]
      | false =>
        rw [hsa] at hC
        simp only [Bool.false_eq_true, if_false] at hC
        obtain ⟨j0, he, hnn, hd⟩ := encdecRT strict v payload hNL.1 hC
        refine ⟨.jobj [(tag, j0)], ?_, .inr ⟨j0, rfl, fun ca => ?_⟩⟩
        · rw [encodeUnion, if_pos hk, hsa]
          simp only [Bool.false_eq_true, if_false]
          rw [he]
          rfl
        · rw [decodeUnion, if_pos hk, hd]
          rfl
    · rw [if_neg hk] at hC
      obtain ⟨j, he, hshape⟩ := encdecUnionRT strict rest tag payload hNL.2 hC
      refine ⟨j, by rw [encodeUnion, if_neg hk]; exact he, ?_⟩
      rcases hshape with ⟨hjs, ⟨v2, hlk, hsa2⟩, hpl⟩ | ⟨j0, hjo, hdu⟩
      · exact .inl ⟨hjs, ⟨v2, by rw [Fields.lookupF, if_neg hk]; exact hlk, hsa2⟩, hpl⟩
      · exact .inr ⟨j0, hjo, fun ca => by rw [decodeUnion, if_neg hk]; exact hdu ca⟩
termination_by strict variants tag payload h1 h2 => (sizeOf variants, 0)
decreasing_by all_goals (simp_wf; omega)
end

/-- C1: for every validator built from the non-lossy primitives
(String, Integer, Boolean, List, Struct, catch-all-free Union, plus
the Nullable wrapper and Symbol/Any union variants) and every value
valid for it, decoding the encoding returns the value unchanged, in
either strict mode; for Timestamp, the round-trip returns the same
instant truncated to the configured format precision. -/
theorem C1_roundtrip :
    (∀ (strict : Bool) (V : Validator) (x : Value),
        nonLossy V = true → conformant V x = true →
        ∃ j, encode V x = .ok j ∧ decode strict V j = .ok x) ∧
    (∀ (strict : Bool) (prec t : Nat),
        ∃ j, encode (.timestampV prec) (.vtimestamp t) = .ok j ∧
          decode strict (.timestampV prec) j = .ok (.vtimestamp (t / prec * prec))) := by
  constructor
  · intro strict V x hNL hC
    obtain ⟨j, he, _, hd⟩ := encdecRT strict V x hNL hC
    exact ⟨j, he, hd⟩
  · intro strict prec t
    refine ⟨.jstr (renderNat (t / prec)), by rw [encode], ?_⟩
    rw [decode, parseNat_renderNat]

/-- C1 witness: a list-of-strings validator round-trips a concrete
value, and a timestamp of 12345 ticks at precision 60 round-trips to
its truncation 12300. -/
theorem C1_roundtrip_witness :
    (∃ j, encode (.listV (.stringV none none) none none) (.vlist [.vstr "hi"]) = .ok j ∧
        decode true (.listV (.stringV none none) none none) j =
          .ok (.vlist [.vstr "hi"])) ∧
    (∃ j, encode (.timestampV 60) (.vtimestamp 12345) = .ok j ∧
        decode false (.timestampV 60) j = .ok (.vtimestamp (12345 / 60 * 60))) :=
  ⟨C1_roundtrip.1 true (.listV (.stringV none none) none none) (.vlist [.vstr "hi"])
      (by simp [nonLossy])
      (by simp [conformant, conformantList, checkBounds, Except.isOk, Except.toBool]),
   C1_roundtrip.2 false 60 12345⟩

/-- C9: a successfully constructed generated union instance carries a
tag present in the tag map and the value it was given; a Symbol or Any
variant was necessarily constructed with no value, and any other
variant's value passed the tag validator (a missing value validating
as the absent value). -/
theorem C9_union_init (tagmap : Fields) (tag : String) (value : Option Value)
    (u : UnionInstance) (h : unionInit tagmap tag value = .ok u) :
    ∃ v, tagmap.lookupF tag = some v ∧ u.utag = tag ∧ u.payload = value ∧
      (v.isSymbolOrAny = true → value = none) ∧
      (v.isSymbolOrAny = false →
        (validate v (match value with | none => .vnone | some x => x)).isOk = true) := by
  unfold unionInit at h
  split at h
  · exact absurd h (by simp)
  · rename_i v hlk
    cases hsa : v.isSymbolOrAny with
    | true =>
      rw [hsa] at h
      simp only [if_true] at h
      cases value with
      | none =>
        simp only [Except.ok.injEq] at h
        subst h
        refine ⟨v, hlk, rfl, rfl, fun _ => rfl, fun hf => ?_⟩
        rw [hsa] at hf
        cases hf
      | some x => exact absurd h (by simp)
    | false =>
      rw [hsa] at h
      simp only [Bool.false_eq_true, if_false] at h
      split at h
      · rename_i y hv
        simp only [Except.ok.injEq] at h
        subst h
        refine ⟨v, hlk, rfl, rfl, fun hf => ?_, fun _ => ?_⟩
        · rw [hsa] at hf
          cases hf
        · cases value <;> (dsimp only at hv ⊢; rw [hv]; simp [Except.isOk, Except.toBool])
      · exact absurd h (by simp)

/-- C9 witness: constructing a non-symbol variant with a validating
payload succeeds and the invariant instantiates. -/
theorem C9_union_init_witness :
    ∃ v, (Fields.cons "a" (.intV (-100) 100) none .nil).lookupF "a" = some v ∧
      (UnionInstance.mk "a" (some (.vint 5))).utag = "a" ∧
      (UnionInstance.mk "a" (some (.vint 5))).payload = some (.vint 5) ∧
      (v.isSymbolOrAny = true → (some (Value.vint 5) : Option Value) = none) ∧
      (v.isSymbolOrAny = false →
        (validate v (match (some (Value.vint 5) : Option Value) with
                     | none => .vnone | some x => x)).isOk = true) :=
  C9_union_init (Fields.cons "a" (.intV (-100) 100) none .nil) "a" (some (.vint 5))
    ⟨"a", some (.vint 5)⟩
    (by norm_num [unionInit, Fields.lookupF, validate, Validator.isSymbolOrAny])

/-- Postcondition of the newline handler: the line count only grows,
errors are untouched, the single-token and fatal outcomes keep the
tracked indent, the multi-token outcome re-emits the given token
followed by dents of its next line, and the handler never reports end
of input or exhausted fuel. -/
theorem tNEWLINE_spec (sc : Scan) (tk : Token)
    (hnl : 1 ≤ (getChars tk.value).count '\n') (hln : tk.lineno ≤ sc.lineno) :
    sc.lineno ≤ (tNEWLINE sc tk).1.lineno ∧
    (tNEWLINE sc tk).1.errors = sc.errors ∧
    (∀ t, (tNEWLINE sc tk).2 = POut.tok t →
       t = tk ∧ (tNEWLINE sc tk).1.curIndent = sc.curIndent) ∧
    (∀ t rest, (tNEWLINE sc tk).2 = POut.multi t rest →
       t = tk ∧ tk.lineno + 1 ≤ (tNEWLINE sc tk).1.lineno ∧
       ∀ d ∈ rest, isDent d = true ∧ d.lineno = tk.lineno + 1) ∧
    ((tNEWLINE sc tk).2 = POut.fatal → (tNEWLINE sc tk).1.curIndent = sc.curIndent) ∧
    (tNEWLINE sc tk).2 ≠ POut.eof ∧ (tNEWLINE sc tk).2 ≠ POut.spin := by
  simp only [tNEWLINE]
  split
  · refine ⟨by simp, rfl, fun t ht => ⟨?_, rfl⟩, by simp, by simp, by simp, by simp⟩
    injection ht with hh
    exact hh.symm
  · split
    · refine ⟨by simp, rfl, fun t ht => ⟨?_, rfl⟩, by simp, by simp, by simp, by simp⟩
      injection ht with hh
      exact hh.symm
    · split
      · refine ⟨by simp, rfl, by simp, by simp, fun _ => rfl, by simp, by simp⟩
      · refine ⟨by simp, rfl, by simp, fun t rest ht => ?_, by simp, by simp, by simp⟩
        injection ht with hh1 hh2
        refine ⟨hh1.symm, by simp; omega, fun d hd => ?_⟩
        rw [← hh2] at hd
        have hdd := List.eq_of_mem_replicate hd
        subst hdd
        constructor
        · simp only [isDent]
          split <;> rfl
        · rfl

/-- Weakening a scanner postcondition to an earlier entry state whose
line, errors and indent the intermediate state extends. -/
theorem SSpec_lift (scE sc : Scan) (p : Scan × POut)
    (h : SSpec sc p) (hl : scE.lineno ≤ sc.lineno)
    (herr : ∃ es0, sc.errors = scE.errors ++ es0)
    (hci : sc.curIndent = scE.curIndent) : SSpec scE p := by
  obtain ⟨h1, ⟨es, h2⟩, h3, h4, h5⟩ := h
  obtain ⟨es0, h0⟩ := herr
  refine ⟨le_trans hl h1, ⟨es0 ++ es, by rw [h2, h0, List.append_assoc]⟩, ?_, ?_, ?_⟩
  · intro hnm
    rw [h3 hnm, hci]
  · intro t ht
    obtain ⟨a, b, c, d⟩ := h4 t ht
    exact ⟨a, b, le_trans hl c, d⟩
  · intro t rest ht
    obtain ⟨a, b, c, d⟩ := h5 t rest ht
    exact ⟨a, le_trans hl b, c, d⟩

/-- A scanner step that emits nothing satisfies the postcondition as
soon as its state only advances. -/
theorem SSpec_stay (sc sc2 : Scan) (out : POut)
    (hl : sc.lineno ≤ sc2.lineno) (herr : sc2.errors = sc.errors)
    (hci : sc2.curIndent = sc.curIndent)
    (ht : ∀ t, out ≠ POut.tok t) (hm : ∀ t rest, out ≠ POut.multi t rest) :
    SSpec sc (sc2, out) := by
  refine ⟨hl, ⟨[], by simp [herr]⟩, fun _ => hci, ?_, ?_⟩
  · intro t htt
    exact absurd htt (ht t)
  · intro t rest htt
    exact absurd htt (hm t rest)

/-- A scanner step emitting one well-placed non-dent token satisfies
the postcondition. -/
theorem SSpec_tok (sc sc2 : Scan) (t : Token)
    (hl1 : sc.lineno ≤ t.lineno) (hl2 : t.lineno ≤ sc2.lineno)
    (herr : sc2.errors = sc.errors) (hci : sc2.curIndent = sc.curIndent)
    (hd : isDent t = false) (hL : t.ttype ≠ TokType.LINE) :
    SSpec sc (sc2, POut.tok t) := by
  refine ⟨le_trans hl1 hl2, ⟨[], by simp [herr]⟩, fun _ => hci, ?_, by simp⟩
  intro t2 ht2
  injection ht2 with hh
  subst hh
  exact ⟨hd, hL, hl1, hl2⟩

/-- Dispatching a NEWLINE token through the newline handler satisfies
the postcondition relative to any entry state at or before the token
line. -/
theorem tNEWLINE_SSpec (scE sc : Scan) (tk : Token)
    (hnl : 1 ≤ (getChars tk.value).count '\n')
    (hE1 : scE.lineno ≤ tk.lineno) (hE2 : tk.lineno ≤ sc.lineno)
    (hEerr : sc.errors = scE.errors) (hEci : sc.curIndent = scE.curIndent)
    (htt : tk.ttype = TokType.NEWLINE) :
    SSpec scE (tNEWLINE sc tk) := by
  obtain ⟨hl, herr, htok, hmulti, hfatal, hne, hns⟩ := tNEWLINE_spec sc tk hnl hE2
  refine ⟨le_trans (le_trans hE1 hE2) hl, ⟨[], by simp [herr, hEerr]⟩, ?_, ?_, ?_⟩
  · intro hnm
    cases hout : (tNEWLINE sc tk).2 with
    | tok t => rw [(htok t hout).2, hEci]
    | multi t rest => exact absurd hout (hnm t rest)
    | fatal => rw [hfatal hout, hEci]
    | eof => exact absurd hout hne
    | spin => exact absurd hout hns
  · intro t ht
    obtain ⟨h1, h2⟩ := htok t ht
    subst h1
    exact ⟨by simp [isDent, htt], by simp [htt], hE1, le_trans hE2 hl⟩
  · intro t rest ht
    obtain ⟨h1, h2, h3⟩ := hmulti t rest ht
    subst h1
    exact ⟨htt, hE1, h2, h3⟩

/-- A successful newline-rule match is a nonempty run of newlines. -/
theorem matchNewline_count (rest run : List Char) (h : matchNewline rest = some run) :
    1 ≤ run.count '\n' := by
  simp only [matchNewline] at h
  split at h
  · cases h
  · rename_i hne
    injection h with hh
    subst hh
    cases hL : rest.takeWhile (fun c => c == '\n') with
    | nil => rw [hL] at hne; simp at hne
    | cons a l =>
      have ha : a = '\n' := by
        have hm : a ∈ rest.takeWhile (fun c => c == '\n') := by
          rw [hL]
          exact List.mem_cons_self a l
        have := List.mem_takeWhile_imp hm
        simpa using this
      subst ha
      simp [List.count_cons]

/-- The newline rule fires only on a nonempty run of newlines. -/
theorem firstMatch_newline (prev : Option Char) (rest run : List Char)
    (h : firstMatch prev rest = some (.rnewline run)) : 1 ≤ run.count '\n' := by
  unfold firstMatch at h
  split at h
  · cases h
  split at h
  · cases h
  split at h
  · cases h
  split at h
  · cases h
  split at h
  · cases h
  split at h
  · cases h
  split at h
  · cases h
  split at h
  · cases h
  split at h
  · rename_i run2 hmn
    injection h with hh
    injection hh with hh2
    subst hh2
    exact matchNewline_count rest _ hmn
  split at h
  · split at h
    · cases h
    · cases h
  · cases h

/-- The literal rules never yield a structural token. -/
theorem matchLit_cases (c : Char) (tt : TokType) (h : matchLit c = some tt) :
    (tt == TokType.INDENT || tt == TokType.DEDENT) = false ∧ tt ≠ TokType.LINE := by
  unfold matchLit at h
  split at h <;> first
    | (injection h with hh; subst hh; exact ⟨rfl, by simp⟩)
    | cases h

/-- A literal-rule match carries one of the literal token kinds. -/
theorem firstMatch_lit (prev : Option Char) (rest : List Char) (tt : TokType) (ch : Char)
    (h : firstMatch prev rest = some (.rlit tt ch)) :
    (tt == TokType.INDENT || tt == TokType.DEDENT) = false ∧ tt ≠ TokType.LINE := by
  unfold firstMatch at h
  split at h
  · cases h
  split at h
  · cases h
  split at h
  · cases h
  split at h
  · cases h
  split at h
  · cases h
  split at h
  · cases h
  split at h
  · cases h
  split at h
  · cases h
  split at h
  · cases h
  split at h
  · split at h
    · rename_i hml
      injection h with hh
      injection hh with hh1 hh2
      subst hh1
      subst hh2
      exact matchLit_cases _ _ hml
    · cases h
  · cases h

/-- The RESERVED reclassification never yields a structural token. -/
theorem RESERVED_cases (s : String) (tt : TokType) (h : RESERVED s = some tt) :
    (tt == TokType.INDENT || tt == TokType.DEDENT) = false ∧ tt ≠ TokType.LINE := by
  unfold RESERVED at h
  split at h <;> first
    | (injection h with hh; subst hh; exact ⟨rfl, by simp⟩)
    | cases h

/-- Combined scanner postcondition, by induction on the fuel: both the
raw pull and the comment rule satisfy SSpec relative to their entry
state. -/
theorem scanner_spec : ∀ (fuel : Nat) (sc : Scan), SSpec sc (plyNext fuel sc) := by
  intro fuel
  induction fuel with
  | zero =>
    intro sc
    rw [plyNext]
    exact SSpec_stay sc sc .spin (le_refl _) rfl rfl (by simp) (by simp)
  | succ n ih =>
    intro sc
    rw [plyNext]
    split
    · exact SSpec_stay sc sc .eof (le_refl _) rfl rfl (by simp) (by simp)
    · dsimp only
      split
      · exact SSpec_lift sc _ _ (ih _) (le_refl _) ⟨[], by simp⟩ rfl
      · split
        · exact SSpec_tok sc _ _ (le_refl _) (le_refl _) rfl rfl rfl (by simp)
        · exact SSpec_tok sc _ _ (le_refl _) (le_refl _) rfl rfl rfl (by simp)
        · apply SSpec_tok sc _ _ (le_refl _) (le_refl _) rfl rfl
          · simp only [isDent]
            split
            · cases hR : RESERVED (String.mk _) with
              | some tt2 => simp [hR, (RESERVED_cases _ tt2 hR).1]
              | none => simp [hR]
            · rfl
          · simp only
            split
            · cases hR : RESERVED (String.mk _) with
              | some tt2 => simp [hR, (RESERVED_cases _ tt2 hR).2]
              | none => simp [hR]
            · simp
        · exact SSpec_tok sc _ _ (le_refl _) (le_refl _) rfl rfl rfl (by simp)
        · exact SSpec_tok sc _ _ (le_refl _) (le_refl _) rfl rfl rfl (by simp)
        · exact SSpec_tok sc _ _ (le_refl _) (le_refl _) rfl rfl rfl (by simp)
        · exact SSpec_tok sc _ _ (le_refl _) (by simp) rfl rfl rfl (by simp)
        · rename_i len nl hfm
          cases hc : tCommentStep sc len nl with
          | cont sc1 =>
            have hfull := hc
            unfold tCommentStep at hfull
            split at hfull
            · injection hfull with h1
              subst h1
              exact SSpec_lift sc _ _ (ih _) (by simp) ⟨[], by simp⟩ rfl
            · cases hfull
          | out r =>
            have hfull := hc
            unfold tCommentStep at hfull
            split at hfull
            · cases hfull
            · injection hfull with h1
              rw [← h1]
              exact tNEWLINE_SSpec sc _ _ (by simp [getChars]) (le_refl _) (by simp) rfl rfl rfl
        · rename_i run hfm
          exact tNEWLINE_SSpec sc _ _
            (by simpa [getChars] using firstMatch_newline _ _ run hfm)
            (le_refl _) (by simp) rfl rfl rfl
        · rename_i tt ch hfm
          exact SSpec_tok sc _ _ (le_refl _) (le_refl _) rfl rfl
            (by simpa [isDent] using (firstMatch_lit _ _ tt ch hfm).1)
            (by simpa using (firstMatch_lit _ _ tt ch hfm).2)
        · exact SSpec_lift sc _ _ (ih _) (le_refl _) ⟨[(_, sc.lineno)], rfl⟩ rfl

/-- A dent token is INDENT or DEDENT. -/
theorem isDent_ttype (t : Token) (h : isDent t = true) :
    t.ttype = TokType.INDENT ∨ t.ttype = TokType.DEDENT := by
  simp only [isDent, Bool.or_eq_true, beq_iff_eq] at h
  exact h

/-- One token() call preserves the wrapper invariant, and every emitted
token sits at or after the last emitted line and is a dent only when
the previous token was a NEWLINE or a dent. -/
theorem tokenB_spec (fuel : Nat) (st : LexB) (hInv : StInv st) :
    ∀ st2 t, tokenB fuel st = (st2, .tok t) →
      StInv st2 ∧ st2.lastTok = some t ∧
      lastLine st ≤ t.lineno ∧
      (isDent t = true → prevFlag st = true) := by
  intro st2 t htk
  obtain ⟨hq1, hq2, hq3, hq4, hq5, hq6, hq7⟩ := hInv
  unfold tokenB at htk
  cases hqe : st.queue with
  | cons q rest =>
    rw [hqe] at htk
    dsimp only at htk
    injection htk with hst hout
    injection hout with hqt
    subst hqt
    subst hst
    have hqm : q ∈ st.queue := by rw [hqe]; exact List.mem_cons_self q rest
    have htd := hq1 q hqm
    refine ⟨⟨?_, ?_, ?_, ?_, ?_, ?_, ?_⟩, rfl, (hq3 q hqm).1, fun _ => hq2 (by rw [hqe]; simp)⟩
    · intro u hu
      exact hq1 u (by rw [hqe]; exact List.mem_cons_of_mem q hu)
    · intro hne
      simp only [prevFlag]
      rw [htd]
      simp
    · intro u hu
      have hum : u ∈ st.queue := by rw [hqe]; exact List.mem_cons_of_mem q hu
      constructor
      · simp only [lastLine]
        rw [hq4 q hqm u hum]
      · exact (hq3 u hum).2
    · intro u hu u2 hu2
      exact hq4 u (by rw [hqe]; exact List.mem_cons_of_mem q hu)
             u2 (by rw [hqe]; exact List.mem_cons_of_mem q hu2)
    · simp only [lastLine]
      exact (hq3 q hqm).2
    · intro _
      simp
    · intro u hu
      injection hu with hu2
      subst hu2
      rcases isDent_ttype q htd with hh | hh <;> simp [hh]
  | nil =>
    rw [hqe] at htk
    dsimp only at htk
    obtain ⟨hS1, hSerr, hS3, hS4, hS5⟩ := scanner_spec fuel st.sc
    cases hpr : (plyNext fuel st.sc).2 with
    | tok t0 =>
      rw [hpr] at htk
      dsimp only at htk
      obtain ⟨ha, hb, hc, hd⟩ := hS4 t0 hpr
      injection htk with hst hout
      injection hout with hqt
      subst hqt
      subst hst
      refine ⟨⟨by simp, by simp, by simp, by simp, ?_, ?_, ?_⟩, rfl, ?_, ?_⟩
      · simp only [lastLine]
        exact hd
      · intro _
        simp
      · intro u hu
        injection hu with hu2
        subst hu2
        exact hb
      · exact le_trans hq5 hc
      · intro hdt
        rw [hdt] at ha
        cases ha
    | multi t0 rest0 =>
      rw [hpr] at htk
      dsimp only at htk
      obtain ⟨ha, hb, hc, hd⟩ := hS5 t0 rest0 hpr
      injection htk with hst hout
      injection hout with hqt
      subst hqt
      subst hst
      refine ⟨⟨?_, ?_, ?_, ?_, ?_, ?_, ?_⟩, rfl, le_trans hq5 hb, ?_⟩
      · intro u hu
        exact (hd u hu).1
      · intro _
        simp only [prevFlag, ha]
        simp
      · intro u hu
        simp only [lastLine]
        rw [(hd u hu).2]
        exact ⟨Nat.le_succ _, hc⟩
      · intro u hu u2 hu2
        rw [(hd u hu).2, (hd u2 hu2).2]
      · simp only [lastLine]
        exact le_trans (Nat.le_succ _) hc
      · intro _
        simp
      · intro u hu
        injection hu with hu2
        subst hu2
        rw [ha]
        simp
      · intro hdt
        simp [isDent, ha] at hdt
    | eof =>
      rw [hpr] at htk
      dsimp only at htk
      have hciEq : (plyNext fuel st.sc).1.curIndent = st.sc.curIndent :=
        hS3 (by rw [hpr]; simp)
      split at htk
      · rename_i hci
        have hci0 : st.sc.curIndent ≠ 0 := by rw [← hciEq]; exact hci
        have hlast := hq6 hci0
        cases hltc : st.lastTok with
        | none => exact absurd hltc hlast
        | some lt =>
          rw [hltc] at htk
          dsimp only at htk
          have hltL := hq7 lt hltc
          by_cases hltN : lt.ttype = TokType.NEWLINE
          · rw [if_neg (by simp [hltN])] at htk
            rw [List.nil_append] at htk
            cases hn : (plyNext fuel st.sc).1.curIndent / 4 with
            | zero =>
              rw [hn] at htk
              simp only [List.replicate] at htk
              simp at htk
            | succ m =>
              rw [hn] at htk
              simp only [List.replicate] at htk
              injection htk with hst hout
              injection hout with hqt
              subst hqt
              subst hst
              refine ⟨⟨?_, ?_, ?_, ?_, ?_, ?_, ?_⟩, rfl, ?_, ?_⟩
              · intro u hu
                rw [List.eq_of_mem_replicate hu]
                rfl
              · intro _
                simp [prevFlag, isDent, dedentEOF]
              · intro u hu
                rw [List.eq_of_mem_replicate hu]
                exact ⟨le_refl _, le_refl _⟩
              · intro u hu u2 hu2
                rw [List.eq_of_mem_replicate hu, List.eq_of_mem_replicate hu2]
              · exact le_refl _
              · intro _
                simp
              · intro u hu
                injection hu with hu2
                subst hu2
                simp [dedentEOF]
              · exact le_trans hq5 hS1
              · intro _
                simp [prevFlag, hltc, hltN]
          · rw [if_pos ⟨hltN, hltL⟩] at htk
            rw [List.singleton_append] at htk
            injection htk with hst hout
            injection hout with hqt
            subst hqt
            subst hst
            refine ⟨⟨?_, ?_, ?_, ?_, ?_, ?_, ?_⟩, rfl, ?_, ?_⟩
            · intro u hu
              rw [List.eq_of_mem_replicate hu]
              rfl
            · intro _
              simp [prevFlag, newlineEOF]
            · intro u hu
              rw [List.eq_of_mem_replicate hu]
              exact ⟨le_refl _, le_refl _⟩
            · intro u hu u2 hu2
              rw [List.eq_of_mem_replicate hu, List.eq_of_mem_replicate hu2]
            · exact le_refl _
            · intro _
              simp
            · intro u hu
              injection hu with hu2
              subst hu2
              simp [newlineEOF]
            · exact le_trans hq5 hS1
            · intro hdt
              simp [isDent, newlineEOF] at hdt
      · simp at htk
    | fatal =>
      rw [hpr] at htk
      simp at htk
    | spin =>
      rw [hpr] at htk
      simp at htk

/-- The whole emitted stream keeps non-decreasing line numbers and
well-placed dents, for any wrapper state satisfying the invariant. -/
theorem tokenize_inv : ∀ (fuel : Nat) (st : LexB), StInv st →
    linesMono (lastLine st) (tokenize fuel st).2 ∧
    dentsOK (prevFlag st) (tokenize fuel st).2 := by
  intro fuel
  induction fuel with
  | zero =>
    intro st h
    rw [tokenize]
    exact ⟨trivial, trivial⟩
  | succ n ih =>
    intro st h
    rw [tokenize]
    cases htb : tokenB (st.sc.data.length - st.sc.pos + 1) st with
    | mk st1 out =>
      cases out with
      | tok t =>
        dsimp only
        obtain ⟨hInv2, hlt, hline, hdent⟩ :=
          tokenB_spec (st.sc.data.length - st.sc.pos + 1) st h st1 t htb
        obtain ⟨ihm, ihd⟩ := ih st1 hInv2
        have hll : lastLine st1 = t.lineno := by simp [lastLine, hlt]
        have hpf : prevFlag st1 = (t.ttype == TokType.NEWLINE || isDent t) := by
          simp [prevFlag, hlt]
        constructor
        · rw [linesMono]
          exact ⟨hline, by rw [← hll]; exact ihm⟩
        · rw [dentsOK]
          exact ⟨hdent, by rw [← hpf]; exact ihd⟩
      | stop =>
        simp [linesMono, dentsOK]

/-- C5: for every input and fuel bound, the token stream emitted by the
lexer has monotonically non-decreasing line numbers, and every INDENT
or DEDENT token directly follows a NEWLINE or another INDENT/DEDENT,
so dents come in contiguous runs headed by a NEWLINE (the end-of-input
synthesis emits its own NEWLINE before the closing DEDENTs). -/
theorem C5_lexer_stream_invariants (fuel : Nat) (input : List Char) :
    linesMono 0 (tokenizeStr fuel input) ∧ dentsOK false (tokenizeStr fuel input) := by
  have hInv : StInv (inputB initLexer input) := by
    refine ⟨?_, ?_, ?_, ?_, ?_, ?_, ?_⟩
    · intro u hu
      simp [inputB] at hu
    · intro hq
      simp [inputB] at hq
    · intro u hu
      simp [inputB] at hu
    · intro u hu
      simp [inputB] at hu
    · simp [inputB, initLexer, lastLine]
    · intro hci
      simp [inputB, initLexer] at hci
    · intro u hu
      simp [inputB, initLexer] at hu
  have h := tokenize_inv fuel (inputB initLexer input) hInv
  have h1 : lastLine (inputB initLexer input) = 0 := by simp [inputB, initLexer, lastLine]
  have h2 : prevFlag (inputB initLexer input) = false := by simp [inputB, initLexer, prevFlag]
  rw [h1, h2] at h
  exact h

/-- One token() call only appends to the error list. -/
theorem tokenB_errors (fuel : Nat) (st : LexB) :
    ∃ es, (tokenB fuel st).1.sc.errors = st.sc.errors ++ es := by
  obtain ⟨hS1, ⟨es, hes⟩, hS3, hS4, hS5⟩ := scanner_spec fuel st.sc
  unfold tokenB
  cases hqe : st.queue with
  | cons q rest => exact ⟨[], by simp⟩
  | nil =>
    dsimp only
    cases hpr : (plyNext fuel st.sc).2 with
    | tok t => exact ⟨es, by simpa using hes⟩
    | multi t rest => exact ⟨es, by simpa using hes⟩
    | eof =>
      repeat' split
      all_goals exact ⟨es, by simpa using hes⟩
    | fatal => exact ⟨es, by simpa using hes⟩
    | spin => exact ⟨es, by simpa using hes⟩

/-- Tokenization only appends to the error list. -/
theorem tokenize_errors : ∀ (fuel : Nat) (st : LexB),
    ∃ es, ((tokenize fuel st).1).sc.errors = st.sc.errors ++ es := by
  intro fuel
  induction fuel with
  | zero =>
    intro st
    rw [tokenize]
    exact ⟨[], by simp⟩
  | succ n ih =>
    intro st
    rw [tokenize]
    cases htb : tokenB (st.sc.data.length - st.sc.pos + 1) st with
    | mk st1 out =>
      obtain ⟨es1, hes1⟩ := tokenB_errors (st.sc.data.length - st.sc.pos + 1) st
      rw [htb] at hes1
      cases out with
      | tok t =>
        dsimp only
        obtain ⟨es2, hes2⟩ := ih st1
        exact ⟨es1 ++ es2, by rw [hes2, hes1, List.append_assoc]⟩
      | stop =>
        exact ⟨es1, hes1⟩

/-- Skipping k characters before resuming the scan is scanning the
k-dropped string. -/
theorem removeOccA_skip (pat : List Char) :
    ∀ (k : Nat) (t : List Char), removeOccA pat k t = removeOccA pat 0 (t.drop k) := by
  intro k
  induction k with
  | zero =>
    intro t
    rw [List.drop_zero]
  | succ m ih =>
    intro t
    cases t with
    | nil => rw [removeOccA, List.drop_nil, removeOccA]
    | cons c u =>
      rw [removeOccA, List.drop_succ_cons, ih u]

/-- C6 counterexample: lexing the string literal with authored content
one letter, four interior spaces, one letter while the tracked indent
is 4.  The authored line does not begin with the four-space prefix, so
the claim predicts the STRING value unchanged; the lexer also removes
the interior four-space run and yields the two letters alone. -/
theorem C6_counterexample :
    (∃ t ∈ tokenizeStr 100 ("struct\n    \"a    b\"".toList),
        t.ttype = TokType.STRING ∧ t.value = TokValue.chars ("ab".toList)) ∧
    lstarts (List.replicate 4 ' ') ("a    b".toList) = false ∧
    ("ab".toList : List Char) ≠ "a    b".toList := by
  refine ⟨⟨⟨TokType.STRING, TokValue.chars ("ab".toList), 2, 11⟩, ?_, rfl, rfl⟩,
          by decide, by decide⟩
  decide

/-- C6 amended: each line of the produced STRING value is the authored
line with every leftmost non-overlapping occurrence of the n-space
indent run removed, not only a leading prefix: a line without any
occurrence of the run is unchanged, and a line starting with the run
loses it and is scanned onward for further occurrences. -/
theorem C6_string_deindent_amended (n : Nat) (line : List Char) (h : 0 < n) :
    (hasOcc (List.replicate n ' ') line = false →
       removeOcc (List.replicate n ' ') line = line) ∧
    (lstarts (List.replicate n ' ') line = true →
       removeOcc (List.replicate n ' ') line =
         removeOcc (List.replicate n ' ') (line.drop n)) := by
  have hpe : (List.replicate n ' ').isEmpty = false := by
    cases n with
    | zero => omega
    | succ m => simp [List.replicate]
  constructor
  · intro hno
    induction line with
    | nil => rw [removeOcc, removeOccA]
    | cons c t ih =>
      rw [hasOcc, Bool.or_eq_false_iff] at hno
      rw [removeOcc, removeOccA, if_neg (by simp [hpe]), if_neg (by simp [hno.1])]
      rw [removeOcc] at ih
      rw [ih hno.2]
  · intro hpre
    cases line with
    | nil =>
      cases n with
      | zero => omega
      | succ m => simp [List.replicate, lstarts] at hpre
    | cons c t =>
      rw [removeOcc, removeOccA, if_neg (by simp [hpe]), if_pos hpre,
          removeOccA_skip, removeOcc, List.length_replicate]
      cases n with
      | zero => omega
      | succ m => rw [Nat.add_sub_cancel, List.drop_succ_cons]

/-- C6 amended witness: with indent 4, a line with no four-space run
is unchanged, and a line starting with four spaces loses them. -/
theorem C6_string_deindent_amended_witness :
    removeOcc (List.replicate 4 ' ') ("x y".toList) = "x y".toList ∧
    removeOcc (List.replicate 4 ' ') ("    ab".toList) =
      removeOcc (List.replicate 4 ' ') (("    ab".toList).drop 4) :=
  ⟨(C6_string_deindent_amended 4 ("x y".toList) (by decide)).1 (by decide),
   (C6_string_deindent_amended 4 ("    ab".toList) (by decide)).2 (by decide)⟩

/-- The newline handler emits the very token it was handed first. -/
theorem tNEWLINE_emits (sc : Scan) (tk : Token) :
    (∀ t, (tNEWLINE sc tk).2 = POut.tok t → t = tk) ∧
    (∀ t rest, (tNEWLINE sc tk).2 = POut.multi t rest → t = tk) := by
  simp only [tNEWLINE]
  split
  · refine ⟨fun t ht => ?_, by simp⟩
    injection ht with hh
    exact hh.symm
  · split
    · refine ⟨fun t ht => ?_, by simp⟩
      injection ht with hh
      exact hh.symm
    · split
      · exact ⟨by simp, by simp⟩
      · refine ⟨by simp, fun t rest ht => ?_⟩
        injection ht with hh1 hh2
        exact hh1.symm

/-- C7 counterexample: a comment line preceded only by tabs, which are
whitespace.  The claim predicts the comment line is discarded with no
token; the backward scan skips only spaces, so the code classifies it
as a trailing comment and emits a NEWLINE (whose indentation
bookkeeping then emits a DEDENT) for it. -/
theorem C7_counterexample :
    ((("a\n\t\t\t\t# c\nb".toList).drop 2).take 4 = List.replicate 4 '\t') ∧
    commentFullLine ("a\n\t\t\t\t# c\nb".toList ++ ['\n']) 6 = false ∧
    (tokenizeStr 100 ("a\n\t\t\t\t# c\nb".toList)).map Token.ttype =
      [TokType.ID, TokType.NEWLINE, TokType.INDENT, TokType.NEWLINE, TokType.DEDENT,
       TokType.ID, TokType.NEWLINE] := by
  refine ⟨by decide, by decide, by decide⟩

/-- C7 amended: a comment preceded on its line only by SPACES (or at
the start of input) is discarded together with its trailing newlines
and produces no token, scanning merely continuing past it; a comment
preceded by any other character, a tab included, synthesizes a NEWLINE
token dispatched through the newline handler, and every non-fatal
outcome of that dispatch starts with the NEWLINE token. -/
theorem C7_comment_amended (sc : Scan) (len nl : Nat) :
    (commentFullLine sc.data sc.pos = true →
       tCommentStep sc len nl =
         .cont { sc with pos := sc.pos + len, lineno := sc.lineno + nl }) ∧
    (commentFullLine sc.data sc.pos = false →
       tCommentStep sc len nl =
         .out (tNEWLINE { sc with pos := sc.pos + len, lineno := sc.lineno + nl }
           ⟨.NEWLINE, .chars ['\n'], sc.lineno, sc.pos + len - 1⟩) ∧
       (∀ sc2 t, tCommentStep sc len nl = .out (sc2, .tok t) →
          t.ttype = TokType.NEWLINE) ∧
       (∀ sc2 t rest, tCommentStep sc len nl = .out (sc2, .multi t rest) →
          t.ttype = TokType.NEWLINE)) ∧
    (0 < sc.pos → sc.data.getD (sc.pos - 1) ' ' = '\t' →
       commentFullLine sc.data sc.pos = false) := by
  refine ⟨fun hfl => ?_, fun hfl => ⟨?_, ?_, ?_⟩, fun hp hc => ?_⟩
  · rw [tCommentStep, if_pos hfl]
  · rw [tCommentStep, if_neg (by simp [hfl])]
  · intro sc2 t ht
    rw [tCommentStep, if_neg (by simp [hfl])] at ht
    injection ht with hh
    rw [(tNEWLINE_emits _ _).1 t (congrArg Prod.snd hh)]
  · intro sc2 t rest ht
    rw [tCommentStep, if_neg (by simp [hfl])] at ht
    injection ht with hh
    rw [(tNEWLINE_emits _ _).2 t rest (congrArg Prod.snd hh)]
  · cases hsp : sc.pos with
    | zero => omega
    | succ m =>
      rw [hsp] at hc
      rw [commentFullLine]
      simp only [Nat.add_sub_cancel] at hc
      rw [hc]
      simp

/-- C7 amended witness: a hash-led line at the start of input is a
full-line comment and scanning continues with no token; a tab directly
before the hash classifies the comment as trailing. -/
theorem C7_comment_amended_witness :
    tCommentStep ⟨"# c\n".toList, 0, 1, 0, []⟩ 4 1 =
      .cont ⟨"# c\n".toList, 4, 2, 0, []⟩ ∧
    commentFullLine ("\t# c\n".toList) 1 = false :=
  ⟨(C7_comment_amended ⟨"# c\n".toList, 0, 1, 0, []⟩ 4 1).1 (by decide),
   (C7_comment_amended ⟨"\t# c\n".toList, 1, 1, 0, []⟩ 4 1).2.2 (by decide) (by decide)⟩

/-- C10: calling input() on a lexer resets the pending-token queue and
the tracked indent to their initial state but leaves the accumulated
error list unchanged, so errors recorded by a previous tokenization
persist into and accumulate across later tokenizations with the same
lexer instance. -/
theorem C10_input_preserves_errors (st : LexB) (d : List Char) (fuel : Nat) :
    (inputB st d).queue = [] ∧ (inputB st d).sc.curIndent = 0 ∧
    (inputB st d).sc.errors = st.sc.errors ∧
    ∃ es, ((tokenize fuel (inputB st d)).1).sc.errors = st.sc.errors ++ es := by
  refine ⟨rfl, rfl, rfl, ?_⟩
  obtain ⟨es, hes⟩ := tokenize_errors fuel (inputB st d)
  exact ⟨es, hes⟩

end BabelSpec
